import Mathlib

set_option maxHeartbeats 1000000
set_option maxRecDepth 4000

namespace RegexRS

/-! Shallow embedding of the regex-rs engine (parser.rs, compiler.rs, matcher.rs,
lib.rs).  Text is modelled as a list of characters with natural-number offsets;
for the ASCII inputs exercised here this coincides with the byte offsets the
Rust code uses.  Rust panics and non-termination are both modelled by
Option-valued functions returning none (panics structurally, non-termination
through an explicit fuel parameter). -/

/-- Items inside a character group such as [ab\d] (parser.rs CharacterGroupItem). -/
inductive CharacterGroupItem where
  | Digit
  | Word
  | Char (c : Char)
deriving DecidableEq, Repr

/-- Character classes (parser.rs CharacterClass). -/
inductive CharacterClass where
  | Char (c : Char)
  | Digit
  | Word
  | Wildcard
  | Group (negative : Bool) (items : List CharacterGroupItem)
deriving DecidableEq, Repr

/-- Anchors (parser.rs Anchor). -/
inductive Anchor where
  | StartOfString
  | EndOfString
deriving DecidableEq, Repr

/-- Quantifiers (parser.rs Quantifier). -/
inductive Quantifier where
  | OneOrMore
  | ZeroOrMore
  | ZeroOrOne
  | Exact (n : Nat)
  | Range (n : Nat) (m : Option Nat)
deriving DecidableEq, Repr

/-- The regex AST (parser.rs Unit). -/
inductive Unit' where
  | ImplicitGroup (children : List Unit')
  | Group (index : Nat) (children : List Unit')
  | CharacterClass (c : CharacterClass)
  | Anchor (a : Anchor)
  | QuantifiedExpr (expr : Unit') (quantifier : Quantifier)
  | Alternation (children : List Unit')
  | Backreference (index : Nat)

/-! ### ASCII character helpers (mirroring the Rust char methods used) -/

def isAsciiDigit (c : Char) : Bool := 48 ≤ c.toNat && c.toNat ≤ 57

def isAsciiAlphanumeric (c : Char) : Bool :=
  isAsciiDigit c || (97 ≤ c.toNat && c.toNat ≤ 122) || (65 ≤ c.toNat && c.toNat ≤ 90)

def asciiLowercase (c : Char) : Char :=
  if 65 ≤ c.toNat ∧ c.toNat ≤ 90 then Char.ofNat (c.toNat + 32) else c

/-- Rust char::eq_ignore_ascii_case. -/
def eqIgnoreAsciiCase (a b : Char) : Bool := asciiLowercase a == asciiLowercase b

/-! ### Small list/map helpers (HashMap modelled as an association list) -/

/-- HashMap::insert - replaces any previous binding of the key. -/
def insertNat (k : Nat) (v : α) (m : List (Nat × α)) : List (Nat × α) :=
  (k, v) :: m.filter (fun e => !(e.1 == k))

/-- HashMap::get. -/
def lookupNat (k : Nat) : List (Nat × α) → Option α
  | [] => none
  | (k2, v) :: rest => if k2 == k then some v else lookupNat k rest

/-- str::starts_with - listStartsWith hay needle is true iff needle is an
initial segment of hay. -/
def listStartsWith : List Char → List Char → Bool
  | _, [] => true
  | [], _ :: _ => false
  | c :: cs, d :: ds => c == d && listStartsWith cs ds

/-- text[a..b] as a list slice (the Rust code indexes with a ≤ b only). -/
def sliceList (l : List Char) (a b : Nat) : List Char := (l.take b).drop a

/-! ### Cursor (compiler.rs Cursor) -/

structure Cursor where
  text : List Char
  index : Nat
  capturedGroups : List (Nat × List Char)
deriving DecidableEq, Repr

def Cursor.new (text : List Char) : Cursor := ⟨text, 0, []⟩

/-- Cursor::char - the character at the current offset. -/
def Cursor.char (c : Cursor) : Option Char := c.text.get? c.index

/-- Cursor::is_end. -/
def Cursor.isEnd (c : Cursor) : Bool := decide (c.text.length ≤ c.index)

/-- Cursor::advance. -/
def Cursor.advance (c : Cursor) (n : Nat) : Cursor := ⟨c.text, c.index + n, c.capturedGroups⟩

/-- Cursor::add_captured_group. -/
def Cursor.addCapturedGroup (c : Cursor) (idx a b : Nat) : Cursor :=
  ⟨c.text, c.index, insertNat idx (sliceList c.text a b) c.capturedGroups⟩

/-! ### Conditions (compiler.rs Condition): the Rust closures become a
first-order datatype together with an evaluation function. -/

inductive Condition where
  | epsilon
  | matchCharacter (c : Char) (caseInsensitive : Bool)
  | matchDigit
  | matchWord
  | matchAny
  | matchStartOfString
  | matchEndOfString
  | matchCharacterGroup (negative : Bool) (items : List CharacterGroupItem) (caseInsensitive : Bool)
  | matchCapturedGroup (index : Nat)
deriving DecidableEq, Repr

inductive ConditionResult where
  | Accepted (n : Nat)
  | Rejected
deriving DecidableEq, Repr

/-- The evaluate closures of compiler.rs, one arm per constructor. -/
def Condition.evaluate : Condition → Cursor → ConditionResult
  | Condition.epsilon, _ => ConditionResult.Accepted 0
  | Condition.matchCharacter c ci, cur =>
    match cur.char with
    | none => ConditionResult.Rejected
    | some ch =>
      if (ci && eqIgnoreAsciiCase ch c) || ch == c then ConditionResult.Accepted 1
      else ConditionResult.Rejected
  | Condition.matchDigit, cur =>
    match cur.char with
    | none => ConditionResult.Rejected
    | some ch => if isAsciiDigit ch then ConditionResult.Accepted 1 else ConditionResult.Rejected
  | Condition.matchWord, cur =>
    match cur.char with
    | none => ConditionResult.Rejected
    | some ch =>
      if isAsciiAlphanumeric ch || ch == '_' then ConditionResult.Accepted 1
      else ConditionResult.Rejected
  | Condition.matchAny, cur =>
    if cur.isEnd then ConditionResult.Rejected else ConditionResult.Accepted 1
  | Condition.matchStartOfString, cur =>
    if cur.index == 0 then ConditionResult.Accepted 0 else ConditionResult.Rejected
  | Condition.matchEndOfString, cur =>
    if cur.isEnd then ConditionResult.Accepted 0 else ConditionResult.Rejected
  | Condition.matchCharacterGroup neg items ci, cur =>
    match cur.char with
    | none => ConditionResult.Rejected
    | some ch =>
      let r := items.any (fun item =>
        match item with
        | CharacterGroupItem.Char c => if ci then eqIgnoreAsciiCase c ch else c == ch
        | CharacterGroupItem.Digit => isAsciiDigit ch
        | CharacterGroupItem.Word => isAsciiAlphanumeric ch || ch == '_')
      let r := if neg then !r else r
      if r then ConditionResult.Accepted 1 else ConditionResult.Rejected
  | Condition.matchCapturedGroup idx, cur =>
    match lookupNat idx cur.capturedGroups with
    | none => ConditionResult.Rejected
    | some g =>
      if cur.index ≤ cur.text.length then
        if listStartsWith (cur.text.drop cur.index) g then ConditionResult.Accepted g.length
        else ConditionResult.Rejected
      else ConditionResult.Rejected

/-! ### Automaton representation.  The Rust graph of Rc-shared mutable states
is modelled as an arena: a fresh-id counter plus a global, append-only edge
list.  A state's transition list is the (order-preserving) restriction of the
edge list to that source, matching Vec::push order. -/

structure Transition where
  condition : Condition
  target : Nat
deriving DecidableEq, Repr

/-- FSM fragment (compiler.rs FSM); stop plays the role of the Rust field end. -/
structure FSM where
  start : Nat
  stop : Nat
deriving DecidableEq, Repr

structure CapturedGroup where
  index : Nat
  start : Nat
  stop : Nat
deriving DecidableEq, Repr

/-- Compiler state: the global id counter (the Rust static COUNTER), the edges
pushed so far and the captured-group table being collected. -/
structure CompSt where
  counter : Nat
  edges : List (Nat × Transition)
  groups : List CapturedGroup
deriving DecidableEq, Repr

def pushEdge (σ : CompSt) (s : Nat) (t : Transition) : CompSt :=
  ⟨σ.counter, σ.edges ++ [(s, t)], σ.groups⟩

def epsilonTo (t : Nat) : Transition := ⟨Condition.epsilon, t⟩

/-- FSM::new - two fresh states joined by one conditional transition. -/
def fsmNew (cond : Condition) (σ : CompSt) : FSM × CompSt :=
  let s := σ.counter
  let e := σ.counter + 1
  let σ := ⟨σ.counter + 2, σ.edges, σ.groups⟩
  (⟨s, e⟩, pushEdge σ s ⟨cond, e⟩)

/-- concat's inner concat_pair. -/
def concatPair (l r : FSM) (σ : CompSt) : FSM × CompSt :=
  (⟨l.start, r.stop⟩, pushEdge σ l.stop (epsilonTo r.start))

/-- compiler.rs concat; reduce over an empty vec panics (none). -/
def concatL : List FSM → CompSt → Option (FSM × CompSt)
  | [], _ => none
  | m :: ms, σ => some (ms.foldl (fun acc r => concatPair acc.1 r acc.2) (m, σ))

/-- compiler.rs alternation. -/
def alternationL (ms : List FSM) (σ : CompSt) : FSM × CompSt :=
  let s := σ.counter
  let e := σ.counter + 1
  let σ := ⟨σ.counter + 2, σ.edges, σ.groups⟩
  let σ := ms.foldl (fun σ m => pushEdge (pushEdge σ s (epsilonTo m.start)) m.stop (epsilonTo e)) σ
  (⟨s, e⟩, σ)

/-- compiler.rs zero_or_more; the edge push order is exactly that of the source:
start→child.start, start→end, child.end→end, child.end→child.start. -/
def zeroOrMoreF (m : FSM) (σ : CompSt) : FSM × CompSt :=
  let s := σ.counter
  let e := σ.counter + 1
  let σ := ⟨σ.counter + 2, σ.edges, σ.groups⟩
  let σ := pushEdge σ s (epsilonTo m.start)
  let σ := pushEdge σ s (epsilonTo e)
  let σ := pushEdge σ m.stop (epsilonTo e)
  let σ := pushEdge σ m.stop (epsilonTo m.start)
  (⟨s, e⟩, σ)

/-- compiler.rs one_or_more. -/
def oneOrMoreF (m : FSM) (σ : CompSt) : FSM × CompSt :=
  let s := σ.counter
  let e := σ.counter + 1
  let σ := ⟨σ.counter + 2, σ.edges, σ.groups⟩
  let σ := pushEdge σ s (epsilonTo m.start)
  let σ := pushEdge σ m.stop (epsilonTo e)
  let σ := pushEdge σ m.stop (epsilonTo m.start)
  (⟨s, e⟩, σ)

/-- compiler.rs zero_or_one. -/
def zeroOrOneF (m : FSM) (σ : CompSt) : FSM × CompSt :=
  let s := σ.counter
  let e := σ.counter + 1
  let σ := ⟨σ.counter + 2, σ.edges, σ.groups⟩
  let σ := pushEdge σ s (epsilonTo m.start)
  let σ := pushEdge σ s (epsilonTo e)
  let σ := pushEdge σ m.stop (epsilonTo e)
  (⟨s, e⟩, σ)

def condOfClass (ci : Bool) : CharacterClass → Condition
  | CharacterClass.Char c => Condition.matchCharacter c ci
  | CharacterClass.Digit => Condition.matchDigit
  | CharacterClass.Word => Condition.matchWord
  | CharacterClass.Wildcard => Condition.matchAny
  | CharacterClass.Group neg items => Condition.matchCharacterGroup neg items ci

def condOfAnchor : Anchor → Condition
  | Anchor.StartOfString => Condition.matchStartOfString
  | Anchor.EndOfString => Condition.matchEndOfString

mutual

/-- compiler.rs Compiler::compile_unit; the wildcard arm of the quantifier
match is the panic for unsupported quantifiers, modelled as none.  ci is the
compiler-wide match_case_insensitive flag. -/
def compileUnit (ci : Bool) : Unit' → CompSt → Option (FSM × CompSt)
  | Unit'.ImplicitGroup children, σ =>
    match compileUnits ci children σ with
    | none => none
    | some (ms, σ) => concatL ms σ
  | Unit'.Group idx children, σ =>
    match compileUnits ci children σ with
    | none => none
    | some (ms, σ) =>
      match concatL ms σ with
      | none => none
      | some (f, σ) => some (f, ⟨σ.counter, σ.edges, σ.groups ++ [⟨idx, f.start, f.stop⟩]⟩)
  | Unit'.Backreference idx, σ => some (fsmNew (Condition.matchCapturedGroup idx) σ)
  | Unit'.Alternation children, σ =>
    match compileUnits ci children σ with
    | none => none
    | some (ms, σ) => some (alternationL ms σ)
  | Unit'.CharacterClass c, σ => some (fsmNew (condOfClass ci c) σ)
  | Unit'.Anchor a, σ => some (fsmNew (condOfAnchor a) σ)
  | Unit'.QuantifiedExpr expr q, σ =>
    match q with
    | Quantifier.ZeroOrOne =>
      match compileUnit ci expr σ with
      | none => none
      | some (f, σ) => some (zeroOrOneF f σ)
    | Quantifier.ZeroOrMore =>
      match compileUnit ci expr σ with
      | none => none
      | some (f, σ) => some (zeroOrMoreF f σ)
    | Quantifier.OneOrMore =>
      match compileUnit ci expr σ with
      | none => none
      | some (f, σ) => some (oneOrMoreF f σ)
    | _ => none

def compileUnits (ci : Bool) : List Unit' → CompSt → Option (List FSM × CompSt)
  | [], σ => some ([], σ)
  | u :: us, σ =>
    match compileUnit ci u σ with
    | none => none
    | some (f, σ) =>
      match compileUnits ci us σ with
      | none => none
      | some (fs, σ) => some (f :: fs, σ)

end

/-- The compiled machine: the fragment, the captured-group table and the state
graph (compiler.rs CompiledMachine, with the graph made explicit). -/
structure CompiledMachine where
  fsm : FSM
  groups : List CapturedGroup
  edges : List (Nat × Transition)
deriving DecidableEq, Repr

/-- A state's ordered outgoing transition list. -/
def transOf (edges : List (Nat × Transition)) (s : Nat) : List Transition :=
  (edges.filter (fun e => e.1 == s)).map (fun e => e.2)

def CompiledMachine.transitionsOf (M : CompiledMachine) (s : Nat) : List Transition :=
  transOf M.edges s

/-- Compiler::compile, starting from a given value of the global COUNTER;
returns the machine and the counter value afterwards. -/
def Compiler.compile (ast : Unit') (c0 : Nat) : Option (CompiledMachine × Nat) :=
  match compileUnit true ast ⟨c0, [], []⟩ with
  | none => none
  | some (f, σ) => some (⟨f, σ.groups, σ.edges⟩, σ.counter)

/-! ### Matcher (matcher.rs).  try_match receives the cursor and the
pending-start map by mutable reference; we therefore return both together with
the boolean.  The search need not terminate (epsilon cycles), so it takes a
fuel argument; none models a search that has not finished within the fuel
(in Rust: a stack overflow / non-termination). -/

abbrev PendList := List (Nat × Nat)

/-- The start_captured_groups pass of try_match: record the current offset as
the tentative start of every group whose start state is this state. -/
def processStarts (M : CompiledMachine) (state : Nat) (curIndex : Nat) (pend : PendList) : PendList :=
  M.groups.foldl (fun p g => if g.start == state then insertNat g.index curIndex p else p) pend

/-- The end_captured_groups pass of try_match: finalize into the cursor every
group whose end state is this state and which has a pending start. -/
def processEnds (M : CompiledMachine) (state : Nat) (cur : Cursor) (pend : PendList) : Cursor :=
  M.groups.foldl (fun c g =>
    if g.stop == state then
      match lookupNat g.index pend with
      | some a => c.addCapturedGroup g.index a c.index
      | none => c
    else c) cur

/-- The transition loop of try_match.  Note the faithful bug: the shared cursor
is advanced BEFORE being cloned, so on a failing branch the advance persists
into the following siblings and into the caller (the Rust code does
cursor.advance(n) and only then cursor.clone()). -/
def transLoop (step : Cursor → Nat → PendList → Option (Bool × Cursor × PendList)) :
    List Transition → Cursor → PendList → Option (Bool × Cursor × PendList)
  | [], c, p => some (false, c, p)
  | t :: ts, c, p =>
    match Condition.evaluate t.condition c with
    | ConditionResult.Rejected => transLoop step ts c p
    | ConditionResult.Accepted n =>
      let c1 := c.advance n
      match step c1 t.target p with
      | none => none
      | some (true, c2, p2) => some (true, c2, p2)
      | some (false, _, p2) => transLoop step ts c1 p2

/-- matcher.rs Matcher::try_match. -/
def tryMatch (M : CompiledMachine) : Nat → Cursor → Nat → PendList → Option (Bool × Cursor × PendList)
  | 0 => fun _ _ _ => none
  | fuel+1 => fun cur state pend =>
    if state == M.fsm.stop then some (true, cur, pend)
    else
      let pend1 := processStarts M state cur.index pend
      let cur1 := processEnds M state cur pend1
      transLoop (tryMatch M fuel) (M.transitionsOf state) cur1 pend1

/-- The while loop of Matcher::matches: try, then advance by one and give up
as soon as the cursor reaches the end of the text; the pending-start map is
cleared between attempts but the cursor (position and captures) persists. -/
def matchesLoop (M : CompiledMachine) (tmFuel : Nat) : Nat → Cursor → Option Bool
  | 0 => fun _ => none
  | lf+1 => fun cur =>
    match tryMatch M tmFuel cur M.fsm.start [] with
    | none => none
    | some (true, _, _) => some true
    | some (false, c, _) =>
      let c := c.advance 1
      if c.isEnd then some false
      else matchesLoop M tmFuel lf c

/-- matcher.rs Matcher::matches on a fresh cursor for the given text. -/
def machineMatches (M : CompiledMachine) (text : List Char) (fuel : Nat) : Option Bool :=
  matchesLoop M fuel (fuel + 1) (Cursor.new text)

/-! ### Parser (parser.rs).  The Peekable char iterator becomes the list of
remaining input characters; the recursive-descent functions are mutually
recursive through a fuel argument (every call consumes one unit of fuel, and
parseRE supplies amply enough for its input).  Functions that can return a
Rust Err are Option-valued with none as the error. -/

structure PSt where
  input : List Char
  groupIndex : Nat
deriving DecidableEq, Repr

/-- Parser::is_match - consume the next character iff it equals c. -/
def isMatchP (c : Char) (st : PSt) : Bool × PSt :=
  match st.input with
  | d :: rest => if d == c then (true, ⟨rest, st.groupIndex⟩) else (false, st)
  | [] => (false, st)

/-- Parser::consume - consume c or fail. -/
def consumeP (c : Char) (st : PSt) : Option PSt :=
  match st.input with
  | d :: rest => if d == c then some ⟨rest, st.groupIndex⟩ else none
  | [] => none

/-- Parser::quantifier (never errs; the range form is a TODO in the source). -/
def quantifierP (st : PSt) : Option Quantifier × PSt :=
  match isMatchP '*' st with
  | (true, st) => (some Quantifier.ZeroOrMore, st)
  | (false, st) =>
    match isMatchP '+' st with
    | (true, st) => (some Quantifier.OneOrMore, st)
    | (false, st) =>
      match isMatchP '?' st with
      | (true, st) => (some Quantifier.ZeroOrOne, st)
      | (false, st) => (none, st)

/-- Parser::anchor. -/
def anchorP (st : PSt) : Option Unit' × PSt :=
  match isMatchP '$' st with
  | (true, st) => (some (Unit'.Anchor Anchor.EndOfString), st)
  | (false, st) => (none, st)

/-- Parser::character_group_item: a backslash escape followed by a non-digit,
or any single character other than the four delimiters. -/
def characterGroupItemP (st : PSt) : Option CharacterGroupItem × PSt :=
  match st.input with
  | '\\' :: d :: rest =>
    if !(isAsciiDigit d) then
      (some (match d with
             | 'd' => CharacterGroupItem.Digit
             | 'w' => CharacterGroupItem.Word
             | c => CharacterGroupItem.Char c), ⟨rest, st.groupIndex⟩)
    else (none, st)
  | c :: rest =>
    if c == ']' || c == ')' || c == '|' || c == '\\' then (none, st)
    else (some (CharacterGroupItem.Char c), ⟨rest, st.groupIndex⟩)
  | [] => (none, st)

/-- Parser::backreference.  A backslash followed by a digit collects the run of
digits; a trailing lone backslash reaches the empty digits parse and errs. -/
def backreferenceP (st : PSt) : Option (Option Unit' × PSt) :=
  match st.input with
  | '\\' :: rest =>
    match rest with
    | d :: _ =>
      if !(isAsciiDigit d) then some (none, st)
      else
        let digits := rest.takeWhile isAsciiDigit
        let remaining := rest.dropWhile isAsciiDigit
        some (some (Unit'.Backreference
          (digits.foldl (fun acc c => acc * 10 + (c.toNat - 48)) 0)), ⟨remaining, st.groupIndex⟩)
    | [] => none
  | _ => some (none, st)

/-- The loop of Parser::character_group after the first item. -/
def characterGroupLoopP : Nat → Bool → List CharacterGroupItem → PSt → Option (Unit' × PSt)
  | 0, _, _, _ => none
  | f+1, neg, items, st =>
    match isMatchP ']' st with
    | (true, st) => some (Unit'.CharacterClass (CharacterClass.Group neg items), st)
    | (false, st) =>
      match st.input with
      | [] => none
      | _ :: _ =>
        match characterGroupItemP st with
        | (none, _) => none
        | (some it, st) => characterGroupLoopP f neg (items ++ [it]) st

/-- Parser::character_group (called after the opening bracket is consumed). -/
def characterGroupP (f : Nat) (st : PSt) : Option (Unit' × PSt) :=
  let (neg, st) := isMatchP '^' st
  match characterGroupItemP st with
  | (none, _) => none
  | (some it, st) => characterGroupLoopP f neg [it] st

/-- Parser::character_class_item. -/
def characterClassItemP (f : Nat) (st : PSt) : Option (Option Unit' × PSt) :=
  match isMatchP '.' st with
  | (true, st) => some (some (Unit'.CharacterClass CharacterClass.Wildcard), st)
  | (false, st) =>
    match isMatchP '[' st with
    | (true, st) =>
      match characterGroupP f st with
      | none => none
      | some (u, st) => some (some u, st)
    | (false, st) =>
      match characterGroupItemP st with
      | (some (CharacterGroupItem.Char c), st) =>
        some (some (Unit'.CharacterClass (CharacterClass.Char c)), st)
      | (some CharacterGroupItem.Digit, st) =>
        some (some (Unit'.CharacterClass CharacterClass.Digit), st)
      | (some CharacterGroupItem.Word, st) =>
        some (some (Unit'.CharacterClass CharacterClass.Word), st)
      | (none, st) => some (none, st)

/-- Parser::character_class - an item optionally wrapped by a quantifier. -/
def characterClassP (f : Nat) (st : PSt) : Option (Option Unit' × PSt) :=
  match characterClassItemP f st with
  | none => none
  | some (none, st) => some (none, st)
  | some (some u, st) =>
    match quantifierP st with
    | (some q, st) => some (some (Unit'.QuantifiedExpr u q), st)
    | (none, st) => some (some u, st)

mutual

/-- Parser::expression. -/
def expressionP : Nat → PSt → Option (Unit' × PSt)
  | 0, _ => none
  | f+1, st =>
    match subexpressionP f st with
    | none => none
    | some (e, st) =>
      if st.input.head? == some '|' then exprLoopP f [e] st
      else some (e, st)

/-- The while is_match of a vertical bar loop inside Parser::expression. -/
def exprLoopP : Nat → List Unit' → PSt → Option (Unit' × PSt)
  | 0, _, _ => none
  | f+1, acc, st =>
    match isMatchP '|' st with
    | (false, st) => some (Unit'.Alternation acc, st)
    | (true, st) =>
      match expressionP f st with
      | none => none
      | some (e, st) => exprLoopP f (acc ++ [e]) st

/-- Parser::subexpression. -/
def subexpressionP : Nat → PSt → Option (Unit' × PSt)
  | 0, _ => none
  | f+1, st =>
    match subexpressionItemP f st with
    | none => none
    | some (none, _) => none
    | some (some e, st) => subexprLoopP f [e] st

/-- The item-collecting loop inside Parser::subexpression. -/
def subexprLoopP : Nat → List Unit' → PSt → Option (Unit' × PSt)
  | 0, _, _ => none
  | f+1, acc, st =>
    match subexpressionItemP f st with
    | none => none
    | some (none, st) =>
      some (match acc with
            | [e] => e
            | _ => Unit'.ImplicitGroup acc, st)
    | some (some e, st) => subexprLoopP f (acc ++ [e]) st

/-- Parser::subexpression_item. -/
def subexpressionItemP : Nat → PSt → Option (Option Unit' × PSt)
  | 0, _ => none
  | f+1, st =>
    match isMatchP '(' st with
    | (true, st) =>
      match groupP f st with
      | none => none
      | some (u, st) => some (some u, st)
    | (false, st) =>
      match anchorP st with
      | (some u, st) => some (some u, st)
      | (none, st) =>
        match characterClassP f st with
        | none => none
        | some (some u, st) => some (some u, st)
        | some (none, st) => backreferenceP st

/-- Parser::group (called after the opening parenthesis is consumed). -/
def groupP : Nat → PSt → Option (Unit' × PSt)
  | 0, _ => none
  | f+1, st =>
    let idx := st.groupIndex
    let st : PSt := ⟨st.input, st.groupIndex + 1⟩
    match expressionP f st with
    | none => none
    | some (e, st) =>
      match consumeP ')' st with
      | none => none
      | some st =>
        let g := Unit'.Group idx [e]
        match quantifierP st with
        | (some q, st) => some (Unit'.QuantifiedExpr g q, st)
        | (none, st) => some (g, st)

end

/-- Parser::parse.  A leading caret becomes a start anchor; the expression must
consume the whole input. -/
def parseP (f : Nat) (st : PSt) : Option Unit' :=
  let (caret, st) := isMatchP '^' st
  match expressionP f st with
  | none => none
  | some (e, st) =>
    if st.input.isEmpty then
      if caret then some (Unit'.ImplicitGroup [Unit'.Anchor Anchor.StartOfString, e])
      else some e
    else none

/-- Parser::new + Parser::parse with ample fuel for the input length (each
parser call consumes at least one fuel unit and the call depth is linearly
bounded by the input length). -/
def parseRE (pattern : List Char) : Option Unit' :=
  parseP (4 * pattern.length + 12) ⟨pattern, 1⟩

/-- lib.rs Regex::matches: parse (unwrap panics on a parse error: none),
compile, then match.  The matcher fuel is explicit. -/
def RegexMatches (pattern text : List Char) (fuel : Nat) : Option Bool :=
  match parseRE pattern with
  | none => none
  | some ast =>
    match Compiler.compile ast 1 with
    | none => none
    | some (M, _) => machineMatches M text fuel

/-! ### Notions used to state the claims -/

/-- p occurs as a contiguous substring of t. -/
def occursIn (p t : List Char) : Bool :=
  (List.range (t.length + 1)).any (fun i => listStartsWith (t.drop i) p)

/-- The AST of the pattern ab. -/
def astAB : Unit' :=
  Unit'.ImplicitGroup [Unit'.CharacterClass (CharacterClass.Char 'a'),
                       Unit'.CharacterClass (CharacterClass.Char 'b')]

/-- The machine Compiler::compile produces for ab from counter 1. -/
def machineAB : CompiledMachine :=
  ⟨⟨1, 4⟩, [],
   [(1, ⟨Condition.matchCharacter 'a' true, 2⟩),
    (3, ⟨Condition.matchCharacter 'b' true, 4⟩),
    (2, ⟨Condition.epsilon, 3⟩)]⟩

/-- The machine Compiler::compile produces for ab from counter 12: the same
shape as machineAB with every state id shifted by 11. -/
def machineAB12 : CompiledMachine :=
  ⟨⟨12, 15⟩, [],
   [(12, ⟨Condition.matchCharacter 'a' true, 13⟩),
    (14, ⟨Condition.matchCharacter 'b' true, 15⟩),
    (13, ⟨Condition.epsilon, 14⟩)]⟩

/-- The AST of the pattern consisting of a single end-of-string anchor. -/
def astDollar : Unit' := Unit'.Anchor Anchor.EndOfString

/-- The machine compiled from the single end-anchor pattern. -/
def machineDollar : CompiledMachine := ⟨⟨1, 2⟩, [], [(1, ⟨Condition.matchEndOfString, 2⟩)]⟩

/-- The AST of the pattern a* . -/
def astStarA : Unit' :=
  Unit'.QuantifiedExpr (Unit'.CharacterClass (CharacterClass.Char 'a')) Quantifier.ZeroOrMore

/-- The machine compiled from a* starting at counter 1.  The child fragment is
(1, 2); the quantifier adds start 3 and end 4. -/
def machineStarA : CompiledMachine :=
  ⟨⟨3, 4⟩, [],
   [(1, ⟨Condition.matchCharacter 'a' true, 2⟩),
    (3, ⟨Condition.epsilon, 1⟩),
    (3, ⟨Condition.epsilon, 4⟩),
    (2, ⟨Condition.epsilon, 4⟩),
    (2, ⟨Condition.epsilon, 1⟩)]⟩

/-- The AST of a pattern a with a bounded quantifier Exact 3. -/
def astExact3 : Unit' :=
  Unit'.QuantifiedExpr (Unit'.CharacterClass (CharacterClass.Char 'a')) (Quantifier.Exact 3)

/-- A quantifier the compiler does not support (the panic arm of
compile_unit). -/
def quantifierUnsupported : Quantifier → Bool
  | Quantifier.Exact _ => true
  | Quantifier.Range _ _ => true
  | _ => false

mutual

/-- The AST contains a QuantifiedExpr node with a bounded-repetition
quantifier. -/
def containsUnsupportedQuantifier : Unit' → Bool
  | Unit'.ImplicitGroup cs => containsUnsupportedQuantifierL cs
  | Unit'.Group _ cs => containsUnsupportedQuantifierL cs
  | Unit'.Alternation cs => containsUnsupportedQuantifierL cs
  | Unit'.QuantifiedExpr e q => quantifierUnsupported q || containsUnsupportedQuantifier e
  | Unit'.CharacterClass _ => false
  | Unit'.Anchor _ => false
  | Unit'.Backreference _ => false

def containsUnsupportedQuantifierL : List Unit' → Bool
  | [] => false
  | u :: us => containsUnsupportedQuantifier u || containsUnsupportedQuantifierL us

end

/-! ### Structural invariants of the compiled state graph -/

/-- Every transition in the list is an epsilon transition. -/
def allEps (ts : List Transition) : Prop := ∀ t ∈ ts, t.condition = Condition.epsilon

/-- Every state either has only epsilon outgoing transitions or exactly one
outgoing transition. -/
def goodAll (es : List (Nat × Transition)) : Prop :=
  ∀ s, allEps (transOf es s) ∨ (transOf es s).length = 1

/-- All edges of the arena join states strictly below the fresh-id counter. -/
def WFbelow (σ : CompSt) : Prop :=
  ∀ e ∈ σ.edges, e.1 < σ.counter ∧ e.2.target < σ.counter

/-- The fragments occupy consecutive disjoint id windows between lo and hi. -/
def FragsIn : Nat → List FSM → Nat → Prop
  | lo, [], hi => lo ≤ hi
  | lo, f :: fs, hi =>
    ∃ mid, lo ≤ f.start ∧ f.start < mid ∧ lo ≤ f.stop ∧ f.stop < mid ∧ FragsIn mid fs hi

/-- The AST the parser produces for the pattern (a?)*b. -/
def astLoop : Unit' :=
  Unit'.ImplicitGroup [Unit'.QuantifiedExpr (Unit'.Group 1
    [Unit'.QuantifiedExpr (Unit'.CharacterClass (CharacterClass.Char 'a')) Quantifier.ZeroOrOne])
    Quantifier.ZeroOrMore, Unit'.CharacterClass (CharacterClass.Char 'b')]

/-- The machine compiled from (a?)*b starting at counter 1: the a leaf is
(1, 2), the inner a? fragment (3, 4) which is also group 1, the outer star
fragment (5, 6) and the b leaf (7, 8). -/
def machineLoop : CompiledMachine :=
  ⟨⟨5, 8⟩, [⟨1, 3, 4⟩],
   [(1, ⟨Condition.matchCharacter 'a' true, 2⟩),
    (3, ⟨Condition.epsilon, 1⟩),
    (3, ⟨Condition.epsilon, 4⟩),
    (2, ⟨Condition.epsilon, 4⟩),
    (5, ⟨Condition.epsilon, 3⟩),
    (5, ⟨Condition.epsilon, 6⟩),
    (4, ⟨Condition.epsilon, 6⟩),
    (4, ⟨Condition.epsilon, 3⟩),
    (7, ⟨Condition.matchCharacter 'b' true, 8⟩),
    (6, ⟨Condition.epsilon, 7⟩)]⟩

/-- The cursor of the divergent search over the empty text after group 1 has
captured the empty string. -/
def cStar : Cursor := ⟨[], 0, [(1, [])]⟩

/-- The fresh cursor over the empty text. -/
def c0L : Cursor := ⟨[], 0, []⟩

/-- The pending-start map with group 1 tentatively started at offset 0. -/
def pStar : PendList := [(1, 0)]

/-- The pattern parses, yet the match returns no boolean at any recursion
budget: the search diverges. -/
def RegexNeverReturns (pattern text : List Char) : Prop :=
  (∃ ast, parseRE pattern = some ast) ∧
  ∀ fuel, RegexMatches pattern text fuel = none

/-- Shifting every state id by k: the renaming that relates two compilations
of the same AST started at different values of the global counter. -/
def shiftT (k : Nat) (t : Transition) : Transition := ⟨t.condition, t.target + k⟩

def shiftE (k : Nat) (e : Nat × Transition) : Nat × Transition := (e.1 + k, shiftT k e.2)

def shiftFSM (k : Nat) (f : FSM) : FSM := ⟨f.start + k, f.stop + k⟩

def shiftG (k : Nat) (g : CapturedGroup) : CapturedGroup := ⟨g.index, g.start + k, g.stop + k⟩

def shiftSt (k : Nat) (σ : CompSt) : CompSt :=
  ⟨σ.counter + k, σ.edges.map (shiftE k), σ.groups.map (shiftG k)⟩

def shiftM (k : Nat) (M : CompiledMachine) : CompiledMachine :=
  ⟨shiftFSM k M.fsm, M.groups.map (shiftG k), M.edges.map (shiftE k)⟩

/-- The edges the alternation constructor pushes, in push order. -/
def altEdges (s e : Nat) : List FSM → List (Nat × Transition)
  | [] => []
  | m :: ms => (s, epsilonTo m.start) :: (m.stop, epsilonTo e) :: altEdges s e ms

/-- What one compile_unit step guarantees: fresh fragment states, append-only
edges with fresh sources, well-formedness and the one-or-all-epsilon shape of
every transition list, and no outgoing transitions from the fragment end. -/
structure CompOut (σ σ2 : CompSt) (f : FSM) : Prop where
  mono : σ.counter ≤ σ2.counter
  startLo : σ.counter ≤ f.start
  startHi : f.start < σ2.counter
  stopLo : σ.counter ≤ f.stop
  stopHi : f.stop < σ2.counter
  ext : ∃ Δ, σ2.edges = σ.edges ++ Δ ∧
    ∀ e ∈ Δ, σ.counter ≤ e.1 ∧ e.1 < σ2.counter ∧ e.2.target < σ2.counter
  wf : WFbelow σ2
  good : goodAll σ2.edges
  stopFree : transOf σ2.edges f.stop = []

/-- What compiling a list of children guarantees. -/
structure CompOutL (σ σ2 : CompSt) (fs : List FSM) : Prop where
  mono : σ.counter ≤ σ2.counter
  frags : FragsIn σ.counter fs σ2.counter
  ext : ∃ Δ, σ2.edges = σ.edges ++ Δ ∧
    ∀ e ∈ Δ, σ.counter ≤ e.1 ∧ e.1 < σ2.counter ∧ e.2.target < σ2.counter
  wf : WFbelow σ2
  good : goodAll σ2.edges
  stopsFree : ∀ f ∈ fs, transOf σ2.edges f.stop = []

/-! ### Helper lemmas about transition lists and the invariants -/

theorem transOf_nil (s : Nat) : transOf [] s = [] := rfl

theorem transOf_append (es fs : List (Nat × Transition)) (s : Nat) :
    transOf (es ++ fs) s = transOf es s ++ transOf fs s := by
  simp [transOf, List.filter_append]

theorem transOf_single (a : Nat) (t : Transition) (s : Nat) :
    transOf [(a, t)] s = if a = s then [t] else [] := by
  by_cases h : a = s <;> simp [transOf, h]

theorem transOf_push (es : List (Nat × Transition)) (a : Nat) (t : Transition) (s : Nat) :
    transOf (es ++ [(a, t)]) s = transOf es s ++ (if a = s then [t] else []) := by
  rw [transOf_append, transOf_single]

theorem transOf_cons (a : Nat) (t : Transition) (es : List (Nat × Transition)) (s : Nat) :
    transOf ((a, t) :: es) s = (if a = s then [t] else []) ++ transOf es s := by
  by_cases h : a = s <;> simp [transOf, h]

theorem transOf_mem (es : List (Nat × Transition)) (s : Nat) (t : Transition) :
    t ∈ transOf es s ↔ (s, t) ∈ es := by
  simp only [transOf, List.mem_map, List.mem_filter]
  constructor
  · rintro ⟨⟨a, b⟩, ⟨hmem, heq⟩, hb⟩
    simp only [beq_iff_eq] at heq
    subst heq; subst hb; exact hmem
  · intro hmem
    exact ⟨(s, t), ⟨hmem, by simp⟩, rfl⟩

theorem transOf_eq_nil_of_wf (σ : CompSt) (h : WFbelow σ) (s : Nat)
    (hs : σ.counter ≤ s) : transOf σ.edges s = [] := by
  rw [List.eq_nil_iff_forall_not_mem]
  intro t ht
  rw [transOf_mem] at ht
  have := (h _ ht).1
  omega

theorem transOf_eq_nil_of_bounds (Δ : List (Nat × Transition)) (s : Nat)
    (h : ∀ e ∈ Δ, s ≠ e.1) : transOf Δ s = [] := by
  rw [List.eq_nil_iff_forall_not_mem]
  intro t ht
  rw [transOf_mem] at ht
  exact h _ ht rfl

theorem pres_of_ext (σ σ2 : CompSt)
    (h : ∃ Δ, σ2.edges = σ.edges ++ Δ ∧
      ∀ e ∈ Δ, σ.counter ≤ e.1 ∧ e.1 < σ2.counter ∧ e.2.target < σ2.counter)
    (s : Nat) (hs : s < σ.counter) : transOf σ2.edges s = transOf σ.edges s := by
  obtain ⟨Δ, hΔ, hb⟩ := h
  rw [hΔ, transOf_append, transOf_eq_nil_of_bounds Δ s (fun e he => by have := (hb e he).1; omega),
    List.append_nil]

theorem allEps_nil : allEps [] := fun t ht => absurd ht (List.not_mem_nil t)

theorem allEps_append {l1 l2 : List Transition} (h1 : allEps l1) (h2 : allEps l2) :
    allEps (l1 ++ l2) := by
  intro t ht
  rcases List.mem_append.mp ht with h | h
  · exact h1 t h
  · exact h2 t h

/-- Appending epsilon edges whose source states currently carry only epsilon
transitions preserves the one-or-all-epsilon shape. -/
theorem goodAll_append_eps (es Δ : List (Nat × Transition)) (h : goodAll es)
    (hΔeps : ∀ e ∈ Δ, e.2.condition = Condition.epsilon)
    (hΔsrc : ∀ e ∈ Δ, allEps (transOf es e.1)) : goodAll (es ++ Δ) := by
  intro s
  rcases hn : transOf Δ s with _ | ⟨t0, ts⟩
  · rw [transOf_append, hn, List.append_nil]
    exact h s
  · left
    rw [transOf_append]
    apply allEps_append
    · exact hΔsrc (s, t0) (by rw [← transOf_mem, hn]; exact List.mem_cons_self t0 ts)
    · intro t ht
      rw [hn] at ht
      have hmem : (s, t) ∈ Δ := by
        rw [← transOf_mem, hn]
        exact ht
      exact hΔeps (s, t) hmem

theorem goodAll_push_eps (es : List (Nat × Transition)) (h : goodAll es) (a b : Nat)
    (ha : allEps (transOf es a)) : goodAll (es ++ [(a, epsilonTo b)]) := by
  intro s
  by_cases hs : a = s
  · subst hs
    left
    rw [transOf_push, if_pos rfl]
    intro t ht
    rcases List.mem_append.mp ht with h1 | h2
    · exact ha t h1
    · rw [List.mem_singleton] at h2
      subst h2; rfl
  · rw [transOf_push, if_neg hs, List.append_nil]
    exact h s

theorem goodAll_push_new (es : List (Nat × Transition)) (h : goodAll es) (a : Nat)
    (t : Transition) (ha : transOf es a = []) : goodAll (es ++ [(a, t)]) := by
  intro s
  by_cases hs : a = s
  · subst hs
    right
    rw [transOf_push, if_pos rfl, ha]
    simp
  · rw [transOf_push, if_neg hs, List.append_nil]
    exact h s

theorem allEps_of_nil {l : List Transition} (h : l = []) : allEps l := by
  subst h; exact allEps_nil

/-- FSM::new produces a fresh two-state fragment satisfying the step
guarantees. -/
theorem fsmNew_spec (cond : Condition) (σ : CompSt) (hwf : WFbelow σ)
    (hgood : goodAll σ.edges) (f : FSM) (σ2 : CompSt) (heq : fsmNew cond σ = (f, σ2)) :
    CompOut σ σ2 f ∧ f = ⟨σ.counter, σ.counter + 1⟩ ∧ σ2.groups = σ.groups := by
  simp only [fsmNew, pushEdge] at heq
  injection heq with h1 h2
  subst h1
  subst h2
  have hfree : transOf σ.edges σ.counter = [] := transOf_eq_nil_of_wf σ hwf _ (le_refl _)
  have hfree1 : transOf σ.edges (σ.counter + 1) = [] :=
    transOf_eq_nil_of_wf σ hwf _ (by omega)
  refine ⟨⟨?_, ?_, ?_, ?_, ?_, ?_, ?_, ?_, ?_⟩, rfl, rfl⟩
  · show σ.counter ≤ σ.counter + 2
    omega
  · show σ.counter ≤ σ.counter
    omega
  · show σ.counter < σ.counter + 2
    omega
  · show σ.counter ≤ σ.counter + 1
    omega
  · show σ.counter + 1 < σ.counter + 2
    omega
  · refine ⟨[(σ.counter, ⟨cond, σ.counter + 1⟩)], rfl, ?_⟩
    intro e he
    rw [List.mem_singleton] at he
    subst he
    refine ⟨Nat.le_refl _, ?_, ?_⟩
    · show σ.counter < σ.counter + 2
      omega
    · show σ.counter + 1 < σ.counter + 2
      omega
  · intro e he
    show e.1 < σ.counter + 2 ∧ e.2.target < σ.counter + 2
    rcases List.mem_append.mp he with h | h
    · have := hwf e h
      omega
    · rw [List.mem_singleton] at h
      subst h
      show σ.counter < σ.counter + 2 ∧ σ.counter + 1 < σ.counter + 2
      omega
  · exact goodAll_push_new σ.edges hgood σ.counter _ hfree
  · show transOf (σ.edges ++ [(σ.counter, ⟨cond, σ.counter + 1⟩)]) (σ.counter + 1) = []
    rw [transOf_push, if_neg (by omega), List.append_nil]
    exact hfree1

/-- zero_or_more: the new fragment, the exact transition lists of the new
start and of the child's end, untouched other states, and the step
guarantees.  The child end's transition list is fall-through first,
loop-back second. -/
theorem zeroOrMoreF_spec (m : FSM) (σ : CompSt) (hwf : WFbelow σ) (hgood : goodAll σ.edges)
    (hs : m.start < σ.counter) (hp : m.stop < σ.counter)
    (hfree : transOf σ.edges m.stop = []) (f : FSM) (σ2 : CompSt)
    (heq : zeroOrMoreF m σ = (f, σ2)) :
    f = ⟨σ.counter, σ.counter + 1⟩ ∧ σ2.counter = σ.counter + 2 ∧ σ2.groups = σ.groups ∧
    σ2.edges = σ.edges ++ [(σ.counter, epsilonTo m.start), (σ.counter, epsilonTo (σ.counter + 1)),
      (m.stop, epsilonTo (σ.counter + 1)), (m.stop, epsilonTo m.start)] ∧
    transOf σ2.edges m.stop = [epsilonTo (σ.counter + 1), epsilonTo m.start] ∧
    transOf σ2.edges σ.counter = [epsilonTo m.start, epsilonTo (σ.counter + 1)] ∧
    transOf σ2.edges (σ.counter + 1) = [] ∧
    WFbelow σ2 ∧ goodAll σ2.edges := by
  simp only [zeroOrMoreF, pushEdge] at heq
  injection heq with h1 h2
  subst h1
  subst h2
  dsimp only
  have hfreeS : transOf σ.edges σ.counter = [] := transOf_eq_nil_of_wf σ hwf _ (le_refl _)
  have hfreeE : transOf σ.edges (σ.counter + 1) = [] :=
    transOf_eq_nil_of_wf σ hwf _ (by omega)
  have hne1 : ¬ (σ.counter = m.stop) := by omega
  have hne2 : ¬ (m.stop = σ.counter) := by omega
  have hne3 : ¬ (σ.counter = σ.counter + 1) := by omega
  have hne4 : ¬ (m.stop = σ.counter + 1) := by omega
  have heq4 : (((σ.edges ++ [(σ.counter, epsilonTo m.start)]) ++
      [(σ.counter, epsilonTo (σ.counter + 1))]) ++
      [(m.stop, epsilonTo (σ.counter + 1))]) ++ [(m.stop, epsilonTo m.start)] =
      σ.edges ++ [(σ.counter, epsilonTo m.start), (σ.counter, epsilonTo (σ.counter + 1)),
        (m.stop, epsilonTo (σ.counter + 1)), (m.stop, epsilonTo m.start)] := by
    simp
  refine ⟨rfl, rfl, rfl, by simp, ?_, ?_, ?_, ?_, ?_⟩
  · simp [transOf_append, transOf_cons, transOf_nil, hfree, hne1, hne2]
  · simp [transOf_append, transOf_cons, transOf_nil, hfreeS, hne1, hne2]
  · simp [transOf_append, transOf_cons, transOf_nil, hfreeE, hne3, hne4]
  · rw [heq4]
    intro e he
    show e.1 < σ.counter + 2 ∧ e.2.target < σ.counter + 2
    simp only [List.mem_append, List.mem_cons, List.not_mem_nil, or_false] at he
    rcases he with h | h | h | h | h
    · have := hwf e h
      omega
    all_goals (subst h; dsimp only [epsilonTo]; omega)
  · show goodAll ((((σ.edges ++ [(σ.counter, epsilonTo m.start)]) ++
        [(σ.counter, epsilonTo (σ.counter + 1))]) ++
        [(m.stop, epsilonTo (σ.counter + 1))]) ++ [(m.stop, epsilonTo m.start)])
    rw [heq4]
    apply goodAll_append_eps σ.edges _ hgood
    · intro e he
      simp only [List.mem_cons, List.not_mem_nil, or_false] at he
      rcases he with h | h | h | h <;> (subst h; rfl)
    · intro e he
      simp only [List.mem_cons, List.not_mem_nil, or_false] at he
      rcases he with h | h | h | h
      · subst h; exact allEps_of_nil hfreeS
      · subst h; exact allEps_of_nil hfreeS
      · subst h; exact allEps_of_nil hfree
      · subst h; exact allEps_of_nil hfree

/-- one_or_more analogue of zeroOrMoreF_spec. -/
theorem oneOrMoreF_spec (m : FSM) (σ : CompSt) (hwf : WFbelow σ) (hgood : goodAll σ.edges)
    (hs : m.start < σ.counter) (hp : m.stop < σ.counter)
    (hfree : transOf σ.edges m.stop = []) (f : FSM) (σ2 : CompSt)
    (heq : oneOrMoreF m σ = (f, σ2)) :
    f = ⟨σ.counter, σ.counter + 1⟩ ∧ σ2.counter = σ.counter + 2 ∧ σ2.groups = σ.groups ∧
    σ2.edges = σ.edges ++ [(σ.counter, epsilonTo m.start),
      (m.stop, epsilonTo (σ.counter + 1)), (m.stop, epsilonTo m.start)] ∧
    transOf σ2.edges m.stop = [epsilonTo (σ.counter + 1), epsilonTo m.start] ∧
    transOf σ2.edges σ.counter = [epsilonTo m.start] ∧
    transOf σ2.edges (σ.counter + 1) = [] ∧
    WFbelow σ2 ∧ goodAll σ2.edges := by
  simp only [oneOrMoreF, pushEdge] at heq
  injection heq with h1 h2
  subst h1
  subst h2
  have hfreeS : transOf σ.edges σ.counter = [] := transOf_eq_nil_of_wf σ hwf _ (le_refl _)
  have hfreeE : transOf σ.edges (σ.counter + 1) = [] :=
    transOf_eq_nil_of_wf σ hwf _ (by omega)
  have hne1 : ¬ (σ.counter = m.stop) := by omega
  have hne2 : ¬ (m.stop = σ.counter) := by omega
  have hne3 : ¬ (σ.counter = σ.counter + 1) := by omega
  have hne4 : ¬ (m.stop = σ.counter + 1) := by omega
  have heq3 : ((σ.edges ++ [(σ.counter, epsilonTo m.start)]) ++
      [(m.stop, epsilonTo (σ.counter + 1))]) ++ [(m.stop, epsilonTo m.start)] =
      σ.edges ++ [(σ.counter, epsilonTo m.start),
        (m.stop, epsilonTo (σ.counter + 1)), (m.stop, epsilonTo m.start)] := by
    simp
  refine ⟨rfl, rfl, rfl, by simp, ?_, ?_, ?_, ?_, ?_⟩
  · simp [transOf_append, transOf_cons, transOf_nil, hfree, hne1, hne2]
  · simp [transOf_append, transOf_cons, transOf_nil, hfreeS, hne1, hne2]
  · simp [transOf_append, transOf_cons, transOf_nil, hfreeE, hne3, hne4]
  · rw [heq3]
    intro e he
    show e.1 < σ.counter + 2 ∧ e.2.target < σ.counter + 2
    simp only [List.mem_append, List.mem_cons, List.not_mem_nil, or_false] at he
    rcases he with h | h | h | h
    · have := hwf e h
      omega
    all_goals (subst h; dsimp only [epsilonTo]; omega)
  · show goodAll (((σ.edges ++ [(σ.counter, epsilonTo m.start)]) ++
        [(m.stop, epsilonTo (σ.counter + 1))]) ++ [(m.stop, epsilonTo m.start)])
    rw [heq3]
    apply goodAll_append_eps σ.edges _ hgood
    · intro e he
      simp only [List.mem_cons, List.not_mem_nil, or_false] at he
      rcases he with h | h | h <;> (subst h; rfl)
    · intro e he
      simp only [List.mem_cons, List.not_mem_nil, or_false] at he
      rcases he with h | h | h
      · subst h; exact allEps_of_nil hfreeS
      · subst h; exact allEps_of_nil hfree
      · subst h; exact allEps_of_nil hfree

/-- zero_or_one analogue of zeroOrMoreF_spec. -/
theorem zeroOrOneF_spec (m : FSM) (σ : CompSt) (hwf : WFbelow σ) (hgood : goodAll σ.edges)
    (hs : m.start < σ.counter) (hp : m.stop < σ.counter)
    (hfree : transOf σ.edges m.stop = []) (f : FSM) (σ2 : CompSt)
    (heq : zeroOrOneF m σ = (f, σ2)) :
    f = ⟨σ.counter, σ.counter + 1⟩ ∧ σ2.counter = σ.counter + 2 ∧ σ2.groups = σ.groups ∧
    σ2.edges = σ.edges ++ [(σ.counter, epsilonTo m.start),
      (σ.counter, epsilonTo (σ.counter + 1)), (m.stop, epsilonTo (σ.counter + 1))] ∧
    transOf σ2.edges m.stop = [epsilonTo (σ.counter + 1)] ∧
    transOf σ2.edges σ.counter = [epsilonTo m.start, epsilonTo (σ.counter + 1)] ∧
    transOf σ2.edges (σ.counter + 1) = [] ∧
    WFbelow σ2 ∧ goodAll σ2.edges := by
  simp only [zeroOrOneF, pushEdge] at heq
  injection heq with h1 h2
  subst h1
  subst h2
  have hfreeS : transOf σ.edges σ.counter = [] := transOf_eq_nil_of_wf σ hwf _ (le_refl _)
  have hfreeE : transOf σ.edges (σ.counter + 1) = [] :=
    transOf_eq_nil_of_wf σ hwf _ (by omega)
  have hne1 : ¬ (σ.counter = m.stop) := by omega
  have hne2 : ¬ (m.stop = σ.counter) := by omega
  have hne3 : ¬ (σ.counter = σ.counter + 1) := by omega
  have hne4 : ¬ (m.stop = σ.counter + 1) := by omega
  have heq3 : ((σ.edges ++ [(σ.counter, epsilonTo m.start)]) ++
      [(σ.counter, epsilonTo (σ.counter + 1))]) ++ [(m.stop, epsilonTo (σ.counter + 1))] =
      σ.edges ++ [(σ.counter, epsilonTo m.start),
        (σ.counter, epsilonTo (σ.counter + 1)), (m.stop, epsilonTo (σ.counter + 1))] := by
    simp
  refine ⟨rfl, rfl, rfl, by simp, ?_, ?_, ?_, ?_, ?_⟩
  · simp [transOf_append, transOf_cons, transOf_nil, hfree, hne1, hne2]
  · simp [transOf_append, transOf_cons, transOf_nil, hfreeS, hne1, hne2]
  · simp [transOf_append, transOf_cons, transOf_nil, hfreeE, hne3, hne4]
  · rw [heq3]
    intro e he
    show e.1 < σ.counter + 2 ∧ e.2.target < σ.counter + 2
    simp only [List.mem_append, List.mem_cons, List.not_mem_nil, or_false] at he
    rcases he with h | h | h | h
    · have := hwf e h
      omega
    all_goals (subst h; dsimp only [epsilonTo]; omega)
  · show goodAll (((σ.edges ++ [(σ.counter, epsilonTo m.start)]) ++
        [(σ.counter, epsilonTo (σ.counter + 1))]) ++ [(m.stop, epsilonTo (σ.counter + 1))])
    rw [heq3]
    apply goodAll_append_eps σ.edges _ hgood
    · intro e he
      simp only [List.mem_cons, List.not_mem_nil, or_false] at he
      rcases he with h | h | h <;> (subst h; rfl)
    · intro e he
      simp only [List.mem_cons, List.not_mem_nil, or_false] at he
      rcases he with h | h | h
      · subst h; exact allEps_of_nil hfreeS
      · subst h; exact allEps_of_nil hfreeS
      · subst h; exact allEps_of_nil hfree

theorem FragsIn.le : ∀ {lo : Nat} {fs : List FSM} {hi : Nat}, FragsIn lo fs hi → lo ≤ hi := by
  intro lo fs
  induction fs generalizing lo with
  | nil => intro hi h; exact h
  | cons f fs ih =>
    intro hi h
    obtain ⟨mid, h1, h2, h3, h4, h5⟩ := h
    have := ih h5
    omega

theorem FragsIn.mem_bounds : ∀ {lo : Nat} {fs : List FSM} {hi : Nat}, FragsIn lo fs hi →
    ∀ f ∈ fs, lo ≤ f.start ∧ f.start < hi ∧ lo ≤ f.stop ∧ f.stop < hi := by
  intro lo fs
  induction fs generalizing lo with
  | nil => intro hi h f hf; cases hf
  | cons g fs ih =>
    intro hi h f hf
    obtain ⟨mid, h1, h2, h3, h4, h5⟩ := h
    have hmid := FragsIn.le h5
    rcases List.mem_cons.mp hf with h6 | h6
    · subst h6; omega
    · have := ih h5 f h6
      omega

/-- The concat fold: each step wires the accumulated fragment's end to the
next fragment's start with an epsilon edge, keeping all step guarantees. -/
theorem concatFold_spec (lo : Nat) : ∀ (ms : List FSM) (m : FSM) (σ : CompSt),
    WFbelow σ → goodAll σ.edges →
    FragsIn lo (m :: ms) σ.counter →
    (∀ f ∈ m :: ms, transOf σ.edges f.stop = []) →
    ∀ (r : FSM × CompSt), ms.foldl (fun acc p => concatPair acc.1 p acc.2) (m, σ) = r →
    r.2.counter = σ.counter ∧ r.2.groups = σ.groups ∧
    WFbelow r.2 ∧ goodAll r.2.edges ∧
    (∃ Δ, r.2.edges = σ.edges ++ Δ ∧
      ∀ e ∈ Δ, lo ≤ e.1 ∧ e.1 < σ.counter ∧ e.2.target < σ.counter) ∧
    lo ≤ r.1.start ∧ r.1.start < σ.counter ∧ lo ≤ r.1.stop ∧ r.1.stop < σ.counter ∧
    transOf r.2.edges r.1.stop = [] := by
  intro ms
  induction ms with
  | nil =>
    intro m σ hwf hgood hfr hfree r heq
    obtain ⟨mid, h1, h2, h3, h4, h5⟩ := hfr
    have hmid : mid ≤ σ.counter := h5
    rw [List.foldl_nil] at heq
    subst heq
    dsimp only
    refine ⟨rfl, rfl, hwf, hgood, ⟨[], by simp⟩, by omega, by omega, by omega, by omega, ?_⟩
    exact hfree m (List.mem_cons_self m [])
  | cons r0 rest ih =>
    intro m σ hwf hgood hfr hfree r heq
    obtain ⟨mid1, hm1, hm2, hm3, hm4, ⟨mid2, hr1, hr2, hr3, hr4, hrest⟩⟩ := hfr
    have hmid2 : mid2 ≤ σ.counter := FragsIn.le hrest
    have hmfree : transOf σ.edges m.stop = [] := hfree m (List.mem_cons_self m _)
    have hr0free : transOf σ.edges r0.stop = [] :=
      hfree r0 (List.mem_cons_of_mem m (List.mem_cons_self r0 rest))
    rw [List.foldl_cons] at heq
    have hσ1 : concatPair m r0 σ =
        (⟨m.start, r0.stop⟩, ⟨σ.counter, σ.edges ++ [(m.stop, epsilonTo r0.start)], σ.groups⟩) := by
      rfl
    rw [hσ1] at heq
    have hwf1 : WFbelow ⟨σ.counter, σ.edges ++ [(m.stop, epsilonTo r0.start)], σ.groups⟩ := by
      intro e he
      show e.1 < σ.counter ∧ e.2.target < σ.counter
      rcases List.mem_append.mp he with h | h
      · exact hwf e h
      · rw [List.mem_singleton] at h
        subst h
        dsimp only [epsilonTo]
        omega
    have hgood1 : goodAll (σ.edges ++ [(m.stop, epsilonTo r0.start)]) :=
      goodAll_push_eps σ.edges hgood m.stop r0.start (allEps_of_nil hmfree)
    have hfr1 : FragsIn lo (FSM.mk m.start r0.stop :: rest) σ.counter := by
      refine ⟨mid2, ?_, ?_, ?_, ?_, hrest⟩ <;> dsimp only <;> omega
    have hfree1 : ∀ f ∈ FSM.mk m.start r0.stop :: rest,
        transOf (σ.edges ++ [(m.stop, epsilonTo r0.start)]) f.stop = [] := by
      intro f hf
      rcases List.mem_cons.mp hf with h | h
      · subst h
        dsimp only
        rw [transOf_push, if_neg (by omega), List.append_nil]
        exact hr0free
      · have hb := FragsIn.mem_bounds hrest f h
        rw [transOf_push, if_neg (by omega), List.append_nil]
        exact hfree f (List.mem_cons_of_mem m (List.mem_cons_of_mem r0 h))
    have := ih ⟨m.start, r0.stop⟩ ⟨σ.counter, σ.edges ++ [(m.stop, epsilonTo r0.start)], σ.groups⟩
      hwf1 hgood1 hfr1 hfree1 r heq
    obtain ⟨hc, hg, hw, hgd, ⟨Δ, hΔ, hb⟩, b1, b2, b3, b4, hsf⟩ := this
    refine ⟨hc, hg, hw, hgd, ?_, b1, b2, b3, b4, hsf⟩
    refine ⟨(m.stop, epsilonTo r0.start) :: Δ, by simpa using hΔ, ?_⟩
    intro e he
    rcases List.mem_cons.mp he with h | h
    · subst h
      dsimp only [epsilonTo]
      omega
    · exact hb e h

/-- The alternation fold appends exactly altEdges. -/
theorem altFold_edges (s e : Nat) : ∀ (ms : List FSM) (σ : CompSt),
    (ms.foldl (fun σ m => pushEdge (pushEdge σ s (epsilonTo m.start)) m.stop (epsilonTo e)) σ) =
    ⟨σ.counter, σ.edges ++ altEdges s e ms, σ.groups⟩ := by
  intro ms
  induction ms with
  | nil =>
    intro σ
    simp only [List.foldl_nil, altEdges, List.append_nil]
  | cons m ms ih =>
    intro σ
    rw [List.foldl_cons, ih]
    simp [pushEdge, altEdges]

theorem altEdges_mem (s e : Nat) : ∀ (ms : List FSM), ∀ x ∈ altEdges s e ms,
    ∃ m ∈ ms, x = (s, epsilonTo m.start) ∨ x = (m.stop, epsilonTo e) := by
  intro ms
  induction ms with
  | nil =>
    intro x hx
    cases hx
  | cons m ms ih =>
    intro x hx
    rcases List.mem_cons.mp hx with h | h
    · exact ⟨m, List.mem_cons_self m ms, Or.inl h⟩
    · rcases List.mem_cons.mp h with h2 | h2
      · exact ⟨m, List.mem_cons_self m ms, Or.inr h2⟩
      · obtain ⟨m2, hm2, hor⟩ := ih x h2
        exact ⟨m2, List.mem_cons_of_mem m hm2, hor⟩

/-- alternation: fresh start and end, the altEdges appended, and the step
guarantees. -/
theorem alternationL_spec (lo : Nat) (ms : List FSM) (σ : CompSt)
    (hwf : WFbelow σ) (hgood : goodAll σ.edges)
    (hfr : ∀ f ∈ ms, lo ≤ f.start ∧ f.start < σ.counter ∧ lo ≤ f.stop ∧ f.stop < σ.counter)
    (hfree : ∀ f ∈ ms, transOf σ.edges f.stop = []) (f : FSM) (σ2 : CompSt)
    (heq : alternationL ms σ = (f, σ2)) :
    f = ⟨σ.counter, σ.counter + 1⟩ ∧ σ2.counter = σ.counter + 2 ∧ σ2.groups = σ.groups ∧
    σ2.edges = σ.edges ++ altEdges σ.counter (σ.counter + 1) ms ∧
    WFbelow σ2 ∧ goodAll σ2.edges ∧
    transOf σ2.edges (σ.counter + 1) = [] := by
  have hfold := altFold_edges σ.counter (σ.counter + 1) ms ⟨σ.counter + 2, σ.edges, σ.groups⟩
  rw [alternationL] at heq
  simp only [hfold] at heq
  injection heq with h1 h2
  subst h1
  subst h2
  have hfreeS : transOf σ.edges σ.counter = [] := transOf_eq_nil_of_wf σ hwf _ (le_refl _)
  have hfreeE : transOf σ.edges (σ.counter + 1) = [] :=
    transOf_eq_nil_of_wf σ hwf _ (by omega)
  refine ⟨rfl, rfl, rfl, rfl, ?_, ?_, ?_⟩
  · intro x hx
    show x.1 < σ.counter + 2 ∧ x.2.target < σ.counter + 2
    rcases List.mem_append.mp hx with h | h
    · have := hwf x h
      omega
    · obtain ⟨m, hm, hor⟩ := altEdges_mem _ _ ms x h
      have hb := hfr m hm
      rcases hor with h2 | h2 <;> (subst h2; dsimp only [epsilonTo]; omega)
  · apply goodAll_append_eps σ.edges _ hgood
    · intro x hx
      obtain ⟨m, hm, hor⟩ := altEdges_mem _ _ ms x hx
      rcases hor with h2 | h2 <;> (subst h2; rfl)
    · intro x hx
      obtain ⟨m, hm, hor⟩ := altEdges_mem _ _ ms x hx
      rcases hor with h2 | h2
      · subst h2
        exact allEps_of_nil hfreeS
      · subst h2
        exact allEps_of_nil (hfree m hm)
  · show transOf (σ.edges ++ altEdges σ.counter (σ.counter + 1) ms) (σ.counter + 1) = []
    rw [transOf_append, hfreeE, List.nil_append]
    apply transOf_eq_nil_of_bounds
    intro x hx
    obtain ⟨m, hm, hor⟩ := altEdges_mem _ _ ms x hx
    have hb := hfr m hm
    rcases hor with h2 | h2 <;> (subst h2; dsimp only; omega)

mutual

/-- Master invariant of the compiler: a successful compile_unit step starting
from a well-formed arena produces a fragment of fresh states, appends only
edges with fresh sources, keeps the arena well formed and every transition
list either all-epsilon or of length one, and leaves the fragment end without
outgoing transitions. -/
theorem compileUnit_spec (ci : Bool) (u : Unit') (σ : CompSt) (f : FSM) (σ2 : CompSt)
    (h : compileUnit ci u σ = some (f, σ2)) (hwf : WFbelow σ) (hgood : goodAll σ.edges) :
    CompOut σ σ2 f := by
  cases u with
  | CharacterClass c =>
    simp only [compileUnit] at h
    exact (fsmNew_spec _ σ hwf hgood f σ2 (Option.some.inj h)).1
  | Anchor a =>
    simp only [compileUnit] at h
    exact (fsmNew_spec _ σ hwf hgood f σ2 (Option.some.inj h)).1
  | Backreference idx =>
    simp only [compileUnit] at h
    exact (fsmNew_spec _ σ hwf hgood f σ2 (Option.some.inj h)).1
  | ImplicitGroup children =>
    simp only [compileUnit] at h
    cases hc : compileUnits ci children σ with
    | none => rw [hc] at h; cases h
    | some v =>
      obtain ⟨ms, σ1⟩ := v
      rw [hc] at h
      have IH := compileUnits_spec ci children σ ms σ1 hc hwf hgood
      cases ms with
      | nil => cases h
      | cons m rest =>
        simp only [concatL, Option.some.injEq] at h
        have hfold := concatFold_spec σ.counter rest m σ1 IH.wf IH.good IH.frags
          IH.stopsFree (f, σ2) h
        obtain ⟨hc1, hg1, hw1, hgd1, ⟨Δc, hΔc, hbc⟩, b1, b2, b3, b4, hsf⟩ := hfold
        dsimp only at hc1 hg1 hw1 hgd1 hΔc b1 b2 b3 b4 hsf
        obtain ⟨Δ1, hΔ1, hb1⟩ := IH.ext
        refine ⟨by omega, b1, by omega, b3, by omega, ?_, ?_, hgd1, hsf⟩
        · refine ⟨Δ1 ++ Δc, by rw [hΔc, hΔ1, List.append_assoc], ?_⟩
          intro e he
          rcases List.mem_append.mp he with h2 | h2
          · have := hb1 e h2
            have hm := IH.mono
            omega
          · have := hbc e h2
            omega
        · intro e he
          have := hw1 e he
          omega
  | Group idx children =>
    simp only [compileUnit] at h
    cases hc : compileUnits ci children σ with
    | none => rw [hc] at h; cases h
    | some v =>
      obtain ⟨ms, σ1⟩ := v
      rw [hc] at h
      have IH := compileUnits_spec ci children σ ms σ1 hc hwf hgood
      cases ms with
      | nil => cases h
      | cons m rest =>
        simp only [concatL, Option.some.injEq] at h
        cases hfold0 : (rest.foldl (fun acc p => concatPair acc.1 p acc.2) (m, σ1)) with
        | mk f1 σ1' =>
          rw [hfold0] at h
          simp only [Option.some.injEq, Prod.mk.injEq] at h
          obtain ⟨hf, hσ⟩ := h
          have hfold := concatFold_spec σ.counter rest m σ1 IH.wf IH.good IH.frags
            IH.stopsFree (f1, σ1') hfold0
          obtain ⟨hc1, hg1, hw1, hgd1, ⟨Δc, hΔc, hbc⟩, b1, b2, b3, b4, hsf⟩ := hfold
          dsimp only at hc1 hg1 hw1 hgd1 hΔc b1 b2 b3 b4 hsf
          obtain ⟨Δ1, hΔ1, hb1⟩ := IH.ext
          have hm := IH.mono
          subst hf
          subst hσ
          refine ⟨?_, b1, ?_, b3, ?_, ?_, hw1, hgd1, hsf⟩
          · show σ.counter ≤ σ1'.counter
            omega
          · show f1.start < σ1'.counter
            omega
          · show f1.stop < σ1'.counter
            omega
          · refine ⟨Δ1 ++ Δc, ?_, ?_⟩
            · show σ1'.edges = σ.edges ++ (Δ1 ++ Δc)
              rw [← List.append_assoc, ← hΔ1]
              exact hΔc
            · intro e he
              show σ.counter ≤ e.1 ∧ e.1 < σ1'.counter ∧ e.2.target < σ1'.counter
              rcases List.mem_append.mp he with h2 | h2
              · have := hb1 e h2
                omega
              · have := hbc e h2
                omega
  | Alternation children =>
    simp only [compileUnit] at h
    cases hc : compileUnits ci children σ with
    | none => rw [hc] at h; cases h
    | some v =>
      obtain ⟨ms, σ1⟩ := v
      rw [hc] at h
      simp only [Option.some.injEq] at h
      have IH := compileUnits_spec ci children σ ms σ1 hc hwf hgood
      have hfr := FragsIn.mem_bounds IH.frags
      have halt := alternationL_spec σ.counter ms σ1 IH.wf IH.good hfr IH.stopsFree f σ2 h
      obtain ⟨hf, hcnt, hgr, hed, hw2, hg2, hsf⟩ := halt
      obtain ⟨Δ1, hΔ1, hb1⟩ := IH.ext
      have hm := IH.mono
      have hfs : f.start = σ1.counter := by rw [hf]
      have hfp : f.stop = σ1.counter + 1 := by rw [hf]
      refine ⟨by omega, by omega, by omega, by omega, by omega, ?_, hw2, hg2,
        by rw [hfp]; exact hsf⟩
      refine ⟨Δ1 ++ altEdges σ1.counter (σ1.counter + 1) ms,
        by rw [hed, hΔ1, List.append_assoc], ?_⟩
      intro e he
      rcases List.mem_append.mp he with h2 | h2
      · have := hb1 e h2
        omega
      · obtain ⟨mm, hmm, hor⟩ := altEdges_mem _ _ ms e h2
        have hb := hfr mm hmm
        rcases hor with h3 | h3 <;> (subst h3; dsimp only [epsilonTo]; omega)
  | QuantifiedExpr expr q =>
    cases q with
    | ZeroOrOne =>
      simp only [compileUnit] at h
      cases hc : compileUnit ci expr σ with
      | none => rw [hc] at h; cases h
      | some v =>
        obtain ⟨f1, σ1⟩ := v
        rw [hc] at h
        simp only [Option.some.injEq] at h
        have IH := compileUnit_spec ci expr σ f1 σ1 hc hwf hgood
        have hq := zeroOrOneF_spec f1 σ1 IH.wf IH.good IH.startHi IH.stopHi IH.stopFree f σ2 h
        obtain ⟨hf, hcnt, hgr, hed, ht1, ht2, ht3, hw2, hg2⟩ := hq
        obtain ⟨Δ1, hΔ1, hb1⟩ := IH.ext
        have hm := IH.mono
        have hsLo := IH.startLo
        have hpLo := IH.stopLo
        have hsHi := IH.startHi
        have hpHi := IH.stopHi
        have hfs : f.start = σ1.counter := by rw [hf]
        have hfp : f.stop = σ1.counter + 1 := by rw [hf]
        refine ⟨by omega, by omega, by omega, by omega, by omega, ?_, hw2, hg2,
          by rw [hfp]; exact ht3⟩
        refine ⟨Δ1 ++ [(σ1.counter, epsilonTo f1.start),
          (σ1.counter, epsilonTo (σ1.counter + 1)), (f1.stop, epsilonTo (σ1.counter + 1))],
          by rw [hed, hΔ1, List.append_assoc], ?_⟩
        intro e he
        rcases List.mem_append.mp he with h2 | h2
        · have := hb1 e h2
          omega
        · simp only [List.mem_cons, List.not_mem_nil, or_false] at h2
          rcases h2 with h3 | h3 | h3 <;> (subst h3; dsimp only [epsilonTo]; omega)
    | ZeroOrMore =>
      simp only [compileUnit] at h
      cases hc : compileUnit ci expr σ with
      | none => rw [hc] at h; cases h
      | some v =>
        obtain ⟨f1, σ1⟩ := v
        rw [hc] at h
        simp only [Option.some.injEq] at h
        have IH := compileUnit_spec ci expr σ f1 σ1 hc hwf hgood
        have hq := zeroOrMoreF_spec f1 σ1 IH.wf IH.good IH.startHi IH.stopHi IH.stopFree f σ2 h
        obtain ⟨hf, hcnt, hgr, hed, ht1, ht2, ht3, hw2, hg2⟩ := hq
        obtain ⟨Δ1, hΔ1, hb1⟩ := IH.ext
        have hm := IH.mono
        have hsLo := IH.startLo
        have hpLo := IH.stopLo
        have hsHi := IH.startHi
        have hpHi := IH.stopHi
        have hfs : f.start = σ1.counter := by rw [hf]
        have hfp : f.stop = σ1.counter + 1 := by rw [hf]
        refine ⟨by omega, by omega, by omega, by omega, by omega, ?_, hw2, hg2,
          by rw [hfp]; exact ht3⟩
        refine ⟨Δ1 ++ [(σ1.counter, epsilonTo f1.start), (σ1.counter, epsilonTo (σ1.counter + 1)),
          (f1.stop, epsilonTo (σ1.counter + 1)), (f1.stop, epsilonTo f1.start)],
          by rw [hed, hΔ1, List.append_assoc], ?_⟩
        intro e he
        rcases List.mem_append.mp he with h2 | h2
        · have := hb1 e h2
          omega
        · simp only [List.mem_cons, List.not_mem_nil, or_false] at h2
          rcases h2 with h3 | h3 | h3 | h3 <;> (subst h3; dsimp only [epsilonTo]; omega)
    | OneOrMore =>
      simp only [compileUnit] at h
      cases hc : compileUnit ci expr σ with
      | none => rw [hc] at h; cases h
      | some v =>
        obtain ⟨f1, σ1⟩ := v
        rw [hc] at h
        simp only [Option.some.injEq] at h
        have IH := compileUnit_spec ci expr σ f1 σ1 hc hwf hgood
        have hq := oneOrMoreF_spec f1 σ1 IH.wf IH.good IH.startHi IH.stopHi IH.stopFree f σ2 h
        obtain ⟨hf, hcnt, hgr, hed, ht1, ht2, ht3, hw2, hg2⟩ := hq
        obtain ⟨Δ1, hΔ1, hb1⟩ := IH.ext
        have hm := IH.mono
        have hsLo := IH.startLo
        have hpLo := IH.stopLo
        have hsHi := IH.startHi
        have hpHi := IH.stopHi
        have hfs : f.start = σ1.counter := by rw [hf]
        have hfp : f.stop = σ1.counter + 1 := by rw [hf]
        refine ⟨by omega, by omega, by omega, by omega, by omega, ?_, hw2, hg2,
          by rw [hfp]; exact ht3⟩
        refine ⟨Δ1 ++ [(σ1.counter, epsilonTo f1.start),
          (f1.stop, epsilonTo (σ1.counter + 1)), (f1.stop, epsilonTo f1.start)],
          by rw [hed, hΔ1, List.append_assoc], ?_⟩
        intro e he
        rcases List.mem_append.mp he with h2 | h2
        · have := hb1 e h2
          omega
        · simp only [List.mem_cons, List.not_mem_nil, or_false] at h2
          rcases h2 with h3 | h3 | h3 <;> (subst h3; dsimp only [epsilonTo]; omega)
    | Exact n =>
      simp only [compileUnit] at h
      exact Option.noConfusion h
    | Range n m =>
      simp only [compileUnit] at h
      exact Option.noConfusion h

theorem compileUnits_spec (ci : Bool) (us : List Unit') (σ : CompSt) (fs : List FSM) (σ2 : CompSt)
    (h : compileUnits ci us σ = some (fs, σ2)) (hwf : WFbelow σ) (hgood : goodAll σ.edges) :
    CompOutL σ σ2 fs := by
  cases us with
  | nil =>
    simp only [compileUnits, Option.some.injEq, Prod.mk.injEq] at h
    obtain ⟨h1, h2⟩ := h
    subst h1
    subst h2
    exact ⟨le_refl _, le_refl _, ⟨[], by simp⟩, hwf, hgood, by intro f hf; cases hf⟩
  | cons u us =>
    simp only [compileUnits] at h
    cases hc1 : compileUnit ci u σ with
    | none => rw [hc1] at h; cases h
    | some v =>
      obtain ⟨f1, σ1⟩ := v
      rw [hc1] at h
      dsimp only at h
      cases hc2 : compileUnits ci us σ1 with
      | none => rw [hc2] at h; cases h
      | some w =>
        obtain ⟨fs1, σ2'⟩ := w
        rw [hc2] at h
        simp only [Option.some.injEq, Prod.mk.injEq] at h
        obtain ⟨h1, h2⟩ := h
        subst h1
        subst h2
        have IH1 := compileUnit_spec ci u σ f1 σ1 hc1 hwf hgood
        have IH2 := compileUnits_spec ci us σ1 fs1 σ2' hc2 IH1.wf IH1.good
        obtain ⟨Δ1, hΔ1, hb1⟩ := IH1.ext
        obtain ⟨Δ2, hΔ2, hb2⟩ := IH2.ext
        have hm1 := IH1.mono
        have hm2 := IH2.mono
        refine ⟨by omega,
          ⟨σ1.counter, IH1.startLo, IH1.startHi, IH1.stopLo, IH1.stopHi, IH2.frags⟩,
          ?_, IH2.wf, IH2.good, ?_⟩
        · refine ⟨Δ1 ++ Δ2, by rw [hΔ2, hΔ1, List.append_assoc], ?_⟩
          intro e he
          rcases List.mem_append.mp he with h2 | h2
          · have := hb1 e h2
            omega
          · have := hb2 e h2
            omega
        · intro g hg
          rcases List.mem_cons.mp hg with h2 | h2
          · subst h2
            rw [pres_of_ext σ1 σ2' IH2.ext g.stop IH1.stopHi]
            exact IH1.stopFree
          · exact IH2.stopsFree g h2

end

/-! ### Shift commutation: compiling from a shifted counter yields the same
machine with every state id shifted. -/

theorem pushEdge_shift (k : Nat) (σ : CompSt) (s : Nat) (t : Transition) :
    pushEdge (shiftSt k σ) (s + k) (shiftT k t) = shiftSt k (pushEdge σ s t) := by
  simp [pushEdge, shiftSt, shiftE]

theorem fsmNew_shift (k : Nat) (cond : Condition) (σ : CompSt) :
    fsmNew cond (shiftSt k σ) =
      (shiftFSM k (fsmNew cond σ).1, shiftSt k (fsmNew cond σ).2) := by
  have h1 : σ.counter + k + 1 = σ.counter + 1 + k := by omega
  have h2 : σ.counter + k + 2 = σ.counter + 2 + k := by omega
  simp [fsmNew, pushEdge, shiftSt, shiftFSM, shiftE, shiftT, h1, h2]

theorem concatPair_shift (k : Nat) (l r : FSM) (σ : CompSt) :
    concatPair (shiftFSM k l) (shiftFSM k r) (shiftSt k σ) =
      (shiftFSM k (concatPair l r σ).1, shiftSt k (concatPair l r σ).2) := by
  simp [concatPair, pushEdge, shiftSt, shiftFSM, shiftE, shiftT, epsilonTo]

theorem concatFold_shift (k : Nat) : ∀ (ms : List FSM) (m : FSM) (σ : CompSt),
    (ms.map (shiftFSM k)).foldl (fun acc p => concatPair acc.1 p acc.2)
      (shiftFSM k m, shiftSt k σ) =
    (shiftFSM k (ms.foldl (fun acc p => concatPair acc.1 p acc.2) (m, σ)).1,
     shiftSt k (ms.foldl (fun acc p => concatPair acc.1 p acc.2) (m, σ)).2) := by
  intro ms
  induction ms with
  | nil => intro m σ; simp
  | cons r rest ih =>
    intro m σ
    rw [List.map_cons, List.foldl_cons, List.foldl_cons]
    have hc := concatPair_shift k m r σ
    rw [show concatPair (shiftFSM k m) (shiftFSM k r) (shiftSt k σ) =
      (shiftFSM k (concatPair m r σ).1, shiftSt k (concatPair m r σ).2) from hc]
    exact ih (concatPair m r σ).1 (concatPair m r σ).2

theorem concatL_shift (k : Nat) (ms : List FSM) (σ : CompSt) :
    concatL (ms.map (shiftFSM k)) (shiftSt k σ) =
      (concatL ms σ).map (fun p => (shiftFSM k p.1, shiftSt k p.2)) := by
  cases ms with
  | nil => rfl
  | cons m rest =>
    simp only [List.map_cons, concatL, Option.map]
    rw [concatFold_shift k rest m σ]

theorem altEdges_shift (k s e : Nat) : ∀ (ms : List FSM),
    altEdges (s + k) (e + k) (ms.map (shiftFSM k)) = (altEdges s e ms).map (shiftE k) := by
  intro ms
  induction ms with
  | nil => rfl
  | cons m rest ih =>
    simp only [List.map_cons, altEdges, List.map_cons, ih, shiftE, shiftT, shiftFSM, epsilonTo]

theorem alternationL_eq (ms : List FSM) (σ : CompSt) :
    alternationL ms σ = (⟨σ.counter, σ.counter + 1⟩,
      ⟨σ.counter + 2, σ.edges ++ altEdges σ.counter (σ.counter + 1) ms, σ.groups⟩) := by
  rw [alternationL]
  simp only [altFold_edges σ.counter (σ.counter + 1) ms ⟨σ.counter + 2, σ.edges, σ.groups⟩]

theorem alternationL_shift (k : Nat) (ms : List FSM) (σ : CompSt) :
    alternationL (ms.map (shiftFSM k)) (shiftSt k σ) =
      (shiftFSM k (alternationL ms σ).1, shiftSt k (alternationL ms σ).2) := by
  have h1 : σ.counter + k + 1 = σ.counter + 1 + k := by omega
  have h2 : σ.counter + k + 2 = σ.counter + 2 + k := by omega
  rw [alternationL_eq, alternationL_eq]
  simp [shiftSt, shiftFSM, h1, h2, altEdges_shift]

theorem zeroOrMoreF_shift (k : Nat) (m : FSM) (σ : CompSt) :
    zeroOrMoreF (shiftFSM k m) (shiftSt k σ) =
      (shiftFSM k (zeroOrMoreF m σ).1, shiftSt k (zeroOrMoreF m σ).2) := by
  have h1 : σ.counter + k + 1 = σ.counter + 1 + k := by omega
  have h2 : σ.counter + k + 2 = σ.counter + 2 + k := by omega
  simp [zeroOrMoreF, pushEdge, shiftSt, shiftFSM, shiftE, shiftT, epsilonTo, h1, h2]

theorem oneOrMoreF_shift (k : Nat) (m : FSM) (σ : CompSt) :
    oneOrMoreF (shiftFSM k m) (shiftSt k σ) =
      (shiftFSM k (oneOrMoreF m σ).1, shiftSt k (oneOrMoreF m σ).2) := by
  have h1 : σ.counter + k + 1 = σ.counter + 1 + k := by omega
  have h2 : σ.counter + k + 2 = σ.counter + 2 + k := by omega
  simp [oneOrMoreF, pushEdge, shiftSt, shiftFSM, shiftE, shiftT, epsilonTo, h1, h2]

theorem zeroOrOneF_shift (k : Nat) (m : FSM) (σ : CompSt) :
    zeroOrOneF (shiftFSM k m) (shiftSt k σ) =
      (shiftFSM k (zeroOrOneF m σ).1, shiftSt k (zeroOrOneF m σ).2) := by
  have h1 : σ.counter + k + 1 = σ.counter + 1 + k := by omega
  have h2 : σ.counter + k + 2 = σ.counter + 2 + k := by omega
  simp [zeroOrOneF, pushEdge, shiftSt, shiftFSM, shiftE, shiftT, epsilonTo, h1, h2]

mutual

theorem compileUnit_shift (ci : Bool) (k : Nat) (u : Unit') (σ : CompSt) :
    compileUnit ci u (shiftSt k σ) =
      (compileUnit ci u σ).map (fun p => (shiftFSM k p.1, shiftSt k p.2)) := by
  cases u with
  | CharacterClass c =>
    simp only [compileUnit, fsmNew_shift, Option.map]
  | Anchor a =>
    simp only [compileUnit, fsmNew_shift, Option.map]
  | Backreference idx =>
    simp only [compileUnit, fsmNew_shift, Option.map]
  | ImplicitGroup children =>
    simp only [compileUnit, compileUnits_shift ci k children σ]
    cases compileUnits ci children σ with
    | none => rfl
    | some v =>
      obtain ⟨ms, σ1⟩ := v
      simp only [Option.map]
      exact concatL_shift k ms σ1
  | Group idx children =>
    simp only [compileUnit, compileUnits_shift ci k children σ]
    cases compileUnits ci children σ with
    | none => rfl
    | some v =>
      obtain ⟨ms, σ1⟩ := v
      simp only [Option.map]
      rw [concatL_shift k ms σ1]
      cases concatL ms σ1 with
      | none => rfl
      | some w =>
        obtain ⟨f, σ2⟩ := w
        simp [Option.map, shiftSt, shiftFSM, shiftG]
  | Alternation children =>
    simp only [compileUnit, compileUnits_shift ci k children σ]
    cases compileUnits ci children σ with
    | none => rfl
    | some v =>
      obtain ⟨ms, σ1⟩ := v
      simp only [Option.map]
      rw [alternationL_shift k ms σ1]
  | QuantifiedExpr expr q =>
    cases q with
    | ZeroOrOne =>
      simp only [compileUnit, compileUnit_shift ci k expr σ]
      cases compileUnit ci expr σ with
      | none => rfl
      | some v =>
        obtain ⟨f, σ1⟩ := v
        simp only [Option.map]
        rw [zeroOrOneF_shift k f σ1]
    | ZeroOrMore =>
      simp only [compileUnit, compileUnit_shift ci k expr σ]
      cases compileUnit ci expr σ with
      | none => rfl
      | some v =>
        obtain ⟨f, σ1⟩ := v
        simp only [Option.map]
        rw [zeroOrMoreF_shift k f σ1]
    | OneOrMore =>
      simp only [compileUnit, compileUnit_shift ci k expr σ]
      cases compileUnit ci expr σ with
      | none => rfl
      | some v =>
        obtain ⟨f, σ1⟩ := v
        simp only [Option.map]
        rw [oneOrMoreF_shift k f σ1]
    | Exact n =>
      simp only [compileUnit]
      rfl
    | Range n m =>
      simp only [compileUnit]
      rfl

theorem compileUnits_shift (ci : Bool) (k : Nat) (us : List Unit') (σ : CompSt) :
    compileUnits ci us (shiftSt k σ) =
      (compileUnits ci us σ).map (fun p => (p.1.map (shiftFSM k), shiftSt k p.2)) := by
  cases us with
  | nil => rfl
  | cons u us =>
    simp only [compileUnits, compileUnit_shift ci k u σ]
    cases compileUnit ci u σ with
    | none => rfl
    | some v =>
      obtain ⟨f, σ1⟩ := v
      simp only [Option.map]
      rw [compileUnits_shift ci k us σ1]
      cases compileUnits ci us σ1 with
      | none => rfl
      | some w =>
        obtain ⟨fs, σ2⟩ := w
        rfl

end

/-! ### The matcher is invariant under shifting all state ids. -/

theorem transOf_shift (k : Nat) (es : List (Nat × Transition)) (s : Nat) :
    transOf (es.map (shiftE k)) (s + k) = (transOf es s).map (shiftT k) := by
  induction es with
  | nil => rfl
  | cons e rest ih =>
    obtain ⟨a, t⟩ := e
    simp only [List.map_cons, shiftE, transOf_cons, List.map_append]
    by_cases h : a = s
    · subst h
      rw [if_pos rfl, if_pos rfl]
      simp [ih]
    · rw [if_neg (by omega), if_neg h]
      simpa using ih

theorem processStarts_shift (k : Nat) (M : CompiledMachine) (s i : Nat) :
    ∀ (p : PendList), processStarts (shiftM k M) (s + k) i p = processStarts M s i p := by
  show ∀ (p : PendList),
    (M.groups.map (shiftG k)).foldl
      (fun p g => if g.start == s + k then insertNat g.index i p else p) p =
    M.groups.foldl (fun p g => if g.start == s then insertNat g.index i p else p) p
  induction M.groups with
  | nil => intro p; rfl
  | cons g rest ih =>
    intro p
    simp only [List.map_cons, List.foldl_cons]
    dsimp only [shiftG]
    have hc : ((g.start + k) == s + k) = (g.start == s) := by
      cases h : (g.start == s) with
      | true =>
        have := eq_of_beq h
        exact beq_iff_eq.mpr (by omega)
      | false =>
        have := beq_eq_false_iff_ne.mp h
        exact beq_eq_false_iff_ne.mpr (by omega)
    rw [hc]
    cases h : (g.start == s) with
    | true => exact ih (insertNat g.index i p)
    | false => exact ih p

theorem processEnds_shift (k : Nat) (M : CompiledMachine) (s : Nat) :
    ∀ (c : Cursor) (p : PendList), processEnds (shiftM k M) (s + k) c p = processEnds M s c p := by
  show ∀ (c : Cursor) (p : PendList),
    (M.groups.map (shiftG k)).foldl
      (fun c g => if g.stop == s + k then
          match lookupNat g.index p with
          | some a => c.addCapturedGroup g.index a c.index
          | none => c
        else c) c =
    M.groups.foldl (fun c g => if g.stop == s then
          match lookupNat g.index p with
          | some a => c.addCapturedGroup g.index a c.index
          | none => c
        else c) c
  induction M.groups with
  | nil => intro c p; rfl
  | cons g rest ih =>
    intro c p
    simp only [List.map_cons, List.foldl_cons]
    dsimp only [shiftG]
    have hc : ((g.stop + k) == s + k) = (g.stop == s) := by
      cases h : (g.stop == s) with
      | true =>
        have := eq_of_beq h
        exact beq_iff_eq.mpr (by omega)
      | false =>
        have := beq_eq_false_iff_ne.mp h
        exact beq_eq_false_iff_ne.mpr (by omega)
    rw [hc]
    cases h : (g.stop == s) with
    | true =>
      cases lookupNat g.index p with
      | none => exact ih c p
      | some a => exact ih (c.addCapturedGroup g.index a c.index) p
    | false => exact ih c p

theorem transLoop_shift (k : Nat)
    (step1 step2 : Cursor → Nat → PendList → Option (Bool × Cursor × PendList))
    (hstep : ∀ c s p, step2 c (s + k) p = step1 c s p) :
    ∀ (ts : List Transition) (c : Cursor) (p : PendList),
    transLoop step2 (ts.map (shiftT k)) c p = transLoop step1 ts c p := by
  intro ts
  induction ts with
  | nil => intro c p; rfl
  | cons t rest ih =>
    intro c p
    simp only [List.map_cons, transLoop]
    dsimp only [shiftT]
    cases Condition.evaluate t.condition c with
    | Rejected => exact ih c p
    | Accepted n =>
      dsimp only
      rw [hstep]
      cases step1 (c.advance n) t.target p with
      | none => rfl
      | some r =>
        obtain ⟨b, c2, p2⟩ := r
        cases b with
        | true => rfl
        | false => exact ih (c.advance n) p2

theorem tryMatch_shift (M : CompiledMachine) (k : Nat) :
    ∀ (fuel : Nat) (c : Cursor) (s : Nat) (p : PendList),
    tryMatch (shiftM k M) fuel c (s + k) p = tryMatch M fuel c s p := by
  intro fuel
  induction fuel with
  | zero => intro c s p; rfl
  | succ f ih =>
    intro c s p
    simp only [tryMatch]
    have hbeq : (s + k == (shiftM k M).fsm.stop) = (s == M.fsm.stop) := by
      show (s + k == M.fsm.stop + k) = (s == M.fsm.stop)
      cases h : (s == M.fsm.stop) with
      | true =>
        have := eq_of_beq h
        exact beq_iff_eq.mpr (by omega)
      | false =>
        have := beq_eq_false_iff_ne.mp h
        exact beq_eq_false_iff_ne.mpr (by omega)
    rw [hbeq]
    cases hss : (s == M.fsm.stop) with
    | true => rfl
    | false =>
      have htr : (shiftM k M).transitionsOf (s + k) = (M.transitionsOf s).map (shiftT k) := by
        show transOf (M.edges.map (shiftE k)) (s + k) = (transOf M.edges s).map (shiftT k)
        exact transOf_shift k M.edges s
      rw [processStarts_shift k M s c.index p, htr,
        processEnds_shift k M s c (processStarts M s c.index p)]
      exact transLoop_shift k (tryMatch M f) (tryMatch (shiftM k M) f) ih
        (M.transitionsOf s) (processEnds M s c (processStarts M s c.index p))
        (processStarts M s c.index p)

theorem matchesLoop_shift (M : CompiledMachine) (k tmFuel : Nat) :
    ∀ (lf : Nat) (c : Cursor),
    matchesLoop (shiftM k M) tmFuel lf c = matchesLoop M tmFuel lf c := by
  intro lf
  induction lf with
  | zero => intro c; rfl
  | succ n ih =>
    intro c
    simp only [matchesLoop]
    have hstart : tryMatch (shiftM k M) tmFuel c (shiftM k M).fsm.start [] =
        tryMatch M tmFuel c M.fsm.start [] :=
      tryMatch_shift M k tmFuel c M.fsm.start []
    rw [hstart]
    cases tryMatch M tmFuel c M.fsm.start [] with
    | none => rfl
    | some r =>
      obtain ⟨b, c2, p2⟩ := r
      cases b with
      | true => rfl
      | false =>
        dsimp only
        cases h2 : (c2.advance 1).isEnd with
        | true => simp [h2]
        | false => simp [h2, ih]

theorem machineMatches_shift (M : CompiledMachine) (k : Nat) (text : List Char) (fuel : Nat) :
    machineMatches (shiftM k M) text fuel = machineMatches M text fuel :=
  matchesLoop_shift M k fuel (fuel + 1) (Cursor.new text)

/-- Compiling from any counter value is the id-shifted compilation from 0. -/
theorem compile_shift (ast : Unit') (c : Nat) :
    Compiler.compile ast c =
      (Compiler.compile ast 0).map (fun p => (shiftM c p.1, p.2 + c)) := by
  unfold Compiler.compile
  have h0 : (⟨c, [], []⟩ : CompSt) = shiftSt c ⟨0, [], []⟩ := by simp [shiftSt]
  rw [h0, compileUnit_shift]
  cases compileUnit true ast ⟨0, [], []⟩ with
  | none => rfl
  | some v =>
    obtain ⟨f, σ⟩ := v
    simp [Option.map, shiftSt, shiftM, shiftFSM]

/-! ### Divergence of the search for (a?)*b over the empty text.  The outer
star loops back into group 1, whose body a? matches zero characters, so
try_match revisits state 3 with an unchanged cursor and pending map forever.
The following one-step unfolding equations hold by definitional reduction;
the fuel-indexed induction then shows the search exhausts every fuel. -/

theorem tmLoop_state1 : ∀ m, tryMatch machineLoop (m+1) cStar 1 pStar =
    some (false, cStar, pStar) := fun _ => rfl

theorem tmLoop_state1_c0 : ∀ m, tryMatch machineLoop (m+1) c0L 1 pStar =
    some (false, c0L, pStar) := fun _ => rfl

theorem tmLoop_state6 : ∀ m, tryMatch machineLoop (m+2) cStar 6 pStar =
    some (false, cStar, pStar) := fun _ => rfl

theorem tmLoop_unfold3 : ∀ m, tryMatch machineLoop (m+1) cStar 3 pStar =
    (match tryMatch machineLoop m cStar 1 pStar with
     | none => none
     | some (true, c2, p2) => some (true, c2, p2)
     | some (false, _, p2) =>
       (match tryMatch machineLoop m cStar 4 p2 with
        | none => none
        | some (true, c2, p2) => some (true, c2, p2)
        | some (false, _, p2) => some (false, cStar, p2))) := fun _ => rfl

theorem tmLoop_unfold4 : ∀ m, tryMatch machineLoop (m+1) cStar 4 pStar =
    (match tryMatch machineLoop m cStar 6 pStar with
     | none => none
     | some (true, c2, p2) => some (true, c2, p2)
     | some (false, _, p2) =>
       (match tryMatch machineLoop m cStar 3 p2 with
        | none => none
        | some (true, c2, p2) => some (true, c2, p2)
        | some (false, _, p2) => some (false, cStar, p2))) := fun _ => rfl

theorem tmLoop_unfold3_c0 : ∀ m, tryMatch machineLoop (m+1) c0L 3 [] =
    (match tryMatch machineLoop m c0L 1 pStar with
     | none => none
     | some (true, c2, p2) => some (true, c2, p2)
     | some (false, _, p2) =>
       (match tryMatch machineLoop m c0L 4 p2 with
        | none => none
        | some (true, c2, p2) => some (true, c2, p2)
        | some (false, _, p2) => some (false, c0L, p2))) := fun _ => rfl

theorem tmLoop_unfold4_c0 : ∀ m, tryMatch machineLoop (m+1) c0L 4 pStar =
    (match tryMatch machineLoop m cStar 6 pStar with
     | none => none
     | some (true, c2, p2) => some (true, c2, p2)
     | some (false, _, p2) =>
       (match tryMatch machineLoop m cStar 3 p2 with
        | none => none
        | some (true, c2, p2) => some (true, c2, p2)
        | some (false, _, p2) => some (false, cStar, p2))) := fun _ => rfl

theorem tmLoop_unfold5 : ∀ m, tryMatch machineLoop (m+1) c0L 5 [] =
    (match tryMatch machineLoop m c0L 3 [] with
     | none => none
     | some (true, c2, p2) => some (true, c2, p2)
     | some (false, _, p2) =>
       (match tryMatch machineLoop m c0L 6 p2 with
        | none => none
        | some (true, c2, p2) => some (true, c2, p2)
        | some (false, _, p2) => some (false, c0L, p2))) := fun _ => rfl

/-- The search of (a?)*b over the empty text exhausts any fuel, from every
configuration of the epsilon cycle and from the start state. -/
theorem machineLoop_diverges : ∀ g : Nat,
    tryMatch machineLoop g cStar 3 pStar = none ∧
    tryMatch machineLoop g cStar 4 pStar = none ∧
    tryMatch machineLoop g c0L 3 [] = none ∧
    tryMatch machineLoop g c0L 4 pStar = none ∧
    tryMatch machineLoop g c0L 5 [] = none := by
  intro g
  induction g using Nat.strong_induction_on with
  | _ g ih =>
    refine ⟨?_, ?_, ?_, ?_, ?_⟩
    · cases g with
      | zero => rfl
      | succ m =>
        rw [tmLoop_unfold3 m]
        cases m with
        | zero => rfl
        | succ j =>
          rw [tmLoop_state1 j]
          dsimp only
          rw [(ih (j+1) (by omega)).2.1]
    · cases g with
      | zero => rfl
      | succ m =>
        rw [tmLoop_unfold4 m]
        match m with
        | 0 => rfl
        | 1 => rfl
        | j+2 =>
          rw [tmLoop_state6 j]
          dsimp only
          rw [(ih (j+2) (by omega)).1]
    · cases g with
      | zero => rfl
      | succ m =>
        rw [tmLoop_unfold3_c0 m]
        cases m with
        | zero => rfl
        | succ j =>
          rw [tmLoop_state1_c0 j]
          dsimp only
          rw [(ih (j+1) (by omega)).2.2.2.1]
    · cases g with
      | zero => rfl
      | succ m =>
        rw [tmLoop_unfold4_c0 m]
        match m with
        | 0 => rfl
        | 1 => rfl
        | j+2 =>
          rw [tmLoop_state6 j]
          dsimp only
          rw [(ih (j+2) (by omega)).1]
    · cases g with
      | zero => rfl
      | succ m =>
        rw [tmLoop_unfold5 m]
        rw [(ih m (by omega)).2.2.1]

/-- Matcher::matches on (a?)*b and the empty text exhausts every fuel. -/
theorem machineLoop_matches_none : ∀ fuel, machineMatches machineLoop [] fuel = none := by
  intro fuel
  show matchesLoop machineLoop fuel (fuel + 1) (Cursor.new []) = none
  simp only [matchesLoop]
  have e : tryMatch machineLoop fuel (Cursor.new []) machineLoop.fsm.start [] = none :=
    (machineLoop_diverges fuel).2.2.2.2
  rw [e]

/-- The whole pipeline on the pattern (a?)*b and the empty text never
returns, whatever the fuel. -/
theorem RegexLoop_never_returns : ∀ fuel,
    RegexMatches "(a?)*b".toList "".toList fuel = none := by
  intro fuel
  have h : RegexMatches "(a?)*b".toList "".toList fuel =
      machineMatches machineLoop [] fuel := rfl
  rw [h]
  exact machineLoop_matches_none fuel

/-! ### Claim theorems -/

/-- Claim C1: the claim asserts that the top-level search attempts an anchored
match at every start offset in 0..=len(text) and returns true iff some offset
succeeds.  The code contradicts this: for the pattern consisting of a single
end-of-string anchor and the text a, the anchored attempt at offset
1 = len(text) succeeds, yet matches returns false, because the while loop in
Matcher::matches gives up as soon as the advanced cursor reaches the end of
the text, without ever starting an attempt at offset len(text) (for nonempty
text).  This theorem evaluates the code at that failing input: the pattern
parses to the end anchor, compiles to machineDollar, the anchored try_match
from offset 1 succeeds, and yet the public search returns false. -/
theorem C1_evaluation :
    parseRE "$".toList = some astDollar ∧
    Compiler.compile astDollar 1 = some (machineDollar, 3) ∧
    tryMatch machineDollar 5 ⟨"a".toList, 1, []⟩ machineDollar.fsm.start [] =
      some (true, ⟨"a".toList, 1, []⟩, []) ∧
    RegexMatches "$".toList "a".toList 10 = some false :=
  ⟨rfl, rfl, rfl, rfl⟩

/-- Claim C2: the claim asserts matches(p, text) is true iff the
metacharacter-free pattern p occurs as a contiguous substring of text.  The
code contradicts this: ab occurs in aab (at offset 1), but matches returns
false.  The failed attempt at offset 0 advances the shared cursor past the a
it consumed (try_match advances the cursor before cloning it, contrary to the
transactional discipline in the specification), so the next attempt starts at
offset 2 and offset 1 is never tried. -/
theorem C2_evaluation :
    RegexMatches "ab".toList "aab".toList 30 = some false ∧
    occursIn "ab".toList "aab".toList = true :=
  ⟨rfl, rfl⟩

/-- Claim C3: the claim asserts that try_match, on returning false, leaves the
cursor and the pending-start map unchanged from their values on entry.  The
code contradicts this: on the machine compiled from ab, entering try_match at
the start state with the cursor at offset 0 over the text ax returns false
with the cursor advanced to offset 1 - the position change made while
exploring the (ultimately failing) first transition leaks to the caller,
because the cursor is advanced before being cloned. -/
theorem C3_evaluation :
    parseRE "ab".toList = some astAB ∧
    Compiler.compile astAB 1 = some (machineAB, 5) ∧
    tryMatch machineAB 10 ⟨"ax".toList, 0, []⟩ machineAB.fsm.start [] =
      some (false, ⟨"ax".toList, 1, []⟩, []) :=
  ⟨rfl, rfl, rfl⟩

/-- Claim C4 counterexample: compiling a* produces child fragment (1, 2) and
new start 3 / end 4, and the transition list of the child fragment's end
state 2 is [epsilon to 4, epsilon to 1]: the fall-through edge to the new end
comes first and the loop-back edge to the child start second - not the order
the claim asserts. -/
theorem C4_counterexample :
    Compiler.compile astStarA 1 = some (machineStarA, 5) ∧
    machineStarA.transitionsOf 2 =
      [⟨Condition.epsilon, 4⟩, ⟨Condition.epsilon, 1⟩] ∧
    machineStarA.transitionsOf 2 ≠
      [⟨Condition.epsilon, 1⟩, ⟨Condition.epsilon, 4⟩] :=
  ⟨rfl, rfl, by decide⟩

/-- Claim C4 (amended): compiling a ZeroOrMore quantified expression appends
exactly two transitions to the child fragment's end state - first the
fall-through edge to the new end state, then the loop-back edge to the child
start - so the fall-through edge is ordered before (and hence tried by the
matcher before) the loop-back edge; combined with the invariant that a freshly
returned fragment's end state has no other outgoing transitions, its
transition list is exactly [to end, to child.start].  The new start state's
list is [to child.start, to end], as the claim says. -/
theorem C4_amended (ci : Bool) (u : Unit') (σ σ1 : CompSt) (f : FSM)
    (hwf : WFbelow σ) (hgood : goodAll σ.edges)
    (h : compileUnit ci u σ = some (f, σ1)) :
    ∃ σ2, compileUnit ci (Unit'.QuantifiedExpr u Quantifier.ZeroOrMore) σ =
        some (⟨σ1.counter, σ1.counter + 1⟩, σ2) ∧
      transOf σ2.edges f.stop = [epsilonTo (σ1.counter + 1), epsilonTo f.start] ∧
      transOf σ2.edges σ1.counter = [epsilonTo f.start, epsilonTo (σ1.counter + 1)] := by
  have IH := compileUnit_spec ci u σ f σ1 h hwf hgood
  cases hz : zeroOrMoreF f σ1 with
  | mk f2 σ2 =>
    have hq := zeroOrMoreF_spec f σ1 IH.wf IH.good IH.startHi IH.stopHi IH.stopFree f2 σ2 hz
    obtain ⟨hf2, hcnt, hgr, hed, ht1, ht2, ht3, hw2, hg2⟩ := hq
    refine ⟨σ2, ?_, ht1, ht2⟩
    simp only [compileUnit, h]
    rw [hz, hf2]

/-- Witness for the amended C4 at the single-character AST a and the empty
initial compiler state. -/
theorem C4_amended_witness :
    WFbelow ⟨1, [], []⟩ ∧ goodAll ([] : List (Nat × Transition)) ∧
    compileUnit true (Unit'.CharacterClass (CharacterClass.Char 'a')) ⟨1, [], []⟩ =
      some (⟨1, 2⟩, ⟨3, [(1, ⟨Condition.matchCharacter 'a' true, 2⟩)], []⟩) ∧
    (∃ σ2, compileUnit true (Unit'.QuantifiedExpr (Unit'.CharacterClass (CharacterClass.Char 'a'))
        Quantifier.ZeroOrMore) ⟨1, [], []⟩ = some (⟨3, 4⟩, σ2) ∧
      transOf σ2.edges 2 = [epsilonTo 4, epsilonTo 1] ∧
      transOf σ2.edges 3 = [epsilonTo 1, epsilonTo 4]) := by
  have hwf : WFbelow ⟨1, [], []⟩ := by intro e he; cases he
  have hgood : goodAll ([] : List (Nat × Transition)) := fun s => Or.inl allEps_nil
  refine ⟨hwf, hgood, rfl, ?_⟩
  exact C4_amended true (Unit'.CharacterClass (CharacterClass.Char 'a')) ⟨1, [], []⟩
    ⟨3, [(1, ⟨Condition.matchCharacter 'a' true, 2⟩)], []⟩ ⟨1, 2⟩ hwf hgood rfl

/-- Claim C9: in every machine the compiler produces, a state carrying a
non-epsilon outgoing transition has exactly one outgoing transition;
equivalently, a state with two or more outgoing transitions has only epsilon
transitions. -/
theorem C9_single_nonepsilon (ast : Unit') (c0 : Nat) (M : CompiledMachine) (c1 : Nat)
    (h : Compiler.compile ast c0 = some (M, c1)) :
    (∀ s, (∃ t ∈ M.transitionsOf s, t.condition ≠ Condition.epsilon) →
      (M.transitionsOf s).length = 1) ∧
    (∀ s, 2 ≤ (M.transitionsOf s).length →
      ∀ t ∈ M.transitionsOf s, t.condition = Condition.epsilon) := by
  unfold Compiler.compile at h
  cases hc : compileUnit true ast ⟨c0, [], []⟩ with
  | none => rw [hc] at h; cases h
  | some v =>
    obtain ⟨f, σ⟩ := v
    rw [hc] at h
    simp only [Option.some.injEq, Prod.mk.injEq] at h
    obtain ⟨hM, hcnt⟩ := h
    have hwf0 : WFbelow ⟨c0, [], []⟩ := by intro e he; cases he
    have hgood0 : goodAll ([] : List (Nat × Transition)) := fun s => Or.inl allEps_nil
    have spec := compileUnit_spec true ast ⟨c0, [], []⟩ f σ hc hwf0 hgood0
    subst hM
    constructor
    · intro s hex
      rcases spec.good s with hall | hlen
      · obtain ⟨t, ht, hne⟩ := hex
        exact absurd (hall t ht) hne
      · exact hlen
    · intro s hlen t ht
      rcases spec.good s with hall | hlen1
      · exact hall t ht
      · have h2 : 2 ≤ (transOf σ.edges s).length := hlen
        omega

/-- Witness for C9 at the machine compiled from ab. -/
theorem C9_single_nonepsilon_witness :
    Compiler.compile astAB 1 = some (machineAB, 5) ∧
    (∀ s, (∃ t ∈ machineAB.transitionsOf s, t.condition ≠ Condition.epsilon) →
      (machineAB.transitionsOf s).length = 1) :=
  ⟨rfl, (C9_single_nonepsilon astAB 1 machineAB 5 rfl).1⟩

/-- Claim C8: compiling the same AST twice, from any two values of the global
counter (so with arbitrary other compilations interleaved between the two),
yields machines that accept exactly the same language: matching any text with
any matcher fuel gives identical results.  Both machines are the id-shifted
image of the compilation from counter 0, and the matcher is invariant under
shifting all state ids. -/
theorem C8_recompile_equivalence (ast : Unit') (c1 c2 n1 n2 : Nat)
    (M1 M2 : CompiledMachine)
    (h1 : Compiler.compile ast c1 = some (M1, n1))
    (h2 : Compiler.compile ast c2 = some (M2, n2)) :
    ∀ (text : List Char) (fuel : Nat),
      machineMatches M1 text fuel = machineMatches M2 text fuel := by
  intro text fuel
  rw [compile_shift ast c1] at h1
  rw [compile_shift ast c2] at h2
  cases h0 : Compiler.compile ast 0 with
  | none => rw [h0] at h1; cases h1
  | some v =>
    obtain ⟨M0, n0⟩ := v
    rw [h0] at h1
    rw [h0] at h2
    simp only [Option.map] at h1 h2
    have hh1 := Option.some.inj h1
    have hh2 := Option.some.inj h2
    injection hh1 with hM1 hn1
    injection hh2 with hM2 hn2
    rw [← hM1, ← hM2, machineMatches_shift M0 c1 text fuel,
      machineMatches_shift M0 c2 text fuel]

/-- Witness for C8: ab compiled from counter 1 and from counter 12 give the
same answer on a concrete text. -/
theorem C8_recompile_equivalence_witness :
    Compiler.compile astAB 1 = some (machineAB, 5) ∧
    Compiler.compile astAB 12 = some (machineAB12, 16) ∧
    machineMatches machineAB "xaby".toList 20 =
      machineMatches machineAB12 "xaby".toList 20 :=
  ⟨rfl, rfl,
    C8_recompile_equivalence astAB 1 12 5 16 machineAB machineAB12 rfl rfl "xaby".toList 20⟩

/-- Claim C5: the backreference condition accepts with length len iff the
group has a captured value in the cursor and the text at the current offset
starts with exactly that value, and rejects otherwise.  The comparison is
listStartsWith, i.e. character-by-character equality - exact and
case-sensitive - and the matchCapturedGroup constructor carries no
case-insensitivity flag at all, so the literal case policy cannot influence
it. -/
theorem C5_backreference_condition (idx : Nat) (cur : Cursor) (n : Nat) :
    ((Condition.matchCapturedGroup idx).evaluate cur = ConditionResult.Accepted n ↔
      ∃ g, lookupNat idx cur.capturedGroups = some g ∧ n = g.length ∧
        cur.index ≤ cur.text.length ∧ listStartsWith (cur.text.drop cur.index) g = true) ∧
    ((Condition.matchCapturedGroup idx).evaluate cur = ConditionResult.Rejected ↔
      ¬ ∃ g, lookupNat idx cur.capturedGroups = some g ∧
        cur.index ≤ cur.text.length ∧ listStartsWith (cur.text.drop cur.index) g = true) := by
  simp only [Condition.evaluate]
  cases h : lookupNat idx cur.capturedGroups with
  | none => simp
  | some g =>
    by_cases hle : cur.index ≤ cur.text.length
    · by_cases hsw : listStartsWith (cur.text.drop cur.index) g = true
      · constructor
        · simp [hle, hsw]
          exact eq_comm
        · simp [hle, hsw]
      · simp [hle, hsw]
    · simp [hle]

mutual

theorem compileUnit_unsupported (ci : Bool) (u : Unit')
    (h : containsUnsupportedQuantifier u = true) (σ : CompSt) :
    compileUnit ci u σ = none := by
  cases u with
  | ImplicitGroup cs =>
    rw [compileUnit, compileUnits_unsupported ci cs h]
  | Group idx cs =>
    rw [compileUnit, compileUnits_unsupported ci cs h]
  | Alternation cs =>
    rw [compileUnit, compileUnits_unsupported ci cs h]
  | QuantifiedExpr e q =>
    rw [containsUnsupportedQuantifier] at h
    cases q with
    | ZeroOrOne =>
      simp only [quantifierUnsupported, Bool.false_or] at h
      rw [compileUnit, compileUnit_unsupported ci e h]
    | ZeroOrMore =>
      simp only [quantifierUnsupported, Bool.false_or] at h
      rw [compileUnit, compileUnit_unsupported ci e h]
    | OneOrMore =>
      simp only [quantifierUnsupported, Bool.false_or] at h
      rw [compileUnit, compileUnit_unsupported ci e h]
    | Exact n => simp [compileUnit]
    | Range n m => simp [compileUnit]
  | CharacterClass c => simp [containsUnsupportedQuantifier] at h
  | Anchor a => simp [containsUnsupportedQuantifier] at h
  | Backreference i => simp [containsUnsupportedQuantifier] at h

theorem compileUnits_unsupported (ci : Bool) (us : List Unit')
    (h : containsUnsupportedQuantifierL us = true) (σ : CompSt) :
    compileUnits ci us σ = none := by
  cases us with
  | nil => simp [containsUnsupportedQuantifierL] at h
  | cons u us =>
    rw [containsUnsupportedQuantifierL, Bool.or_eq_true] at h
    cases hu : containsUnsupportedQuantifier u with
    | true => rw [compileUnits, compileUnit_unsupported ci u hu]
    | false =>
      have hus : containsUnsupportedQuantifierL us = true := by
        cases h with
        | inl h1 => rw [hu] at h1; cases h1
        | inr h2 => exact h2
      rw [compileUnits]
      cases hc : compileUnit ci u σ with
      | none => rfl
      | some v =>
        obtain ⟨f, σ2⟩ := v
        simp only [compileUnits_unsupported ci us hus σ2]

end

/-- Claim C6: for every AST containing a bounded-repetition quantified
expression (Exact or Range), compilation hits the panic arm of compile_unit
(modelled as none): it fails rather than returning an automaton that
approximates the pattern, whatever the value of the global counter. -/
theorem C6_unsupported_quantifier (ast : Unit')
    (h : containsUnsupportedQuantifier ast = true) (c0 : Nat) :
    Compiler.compile ast c0 = none := by
  unfold Compiler.compile
  rw [compileUnit_unsupported true ast h]

/-- Witness for C6 at the concrete AST a followed by an Exact 3 quantifier. -/
theorem C6_unsupported_quantifier_witness :
    containsUnsupportedQuantifier astExact3 = true ∧
    Compiler.compile astExact3 1 = none := by
  have h : containsUnsupportedQuantifier astExact3 = true := by
    simp [astExact3, containsUnsupportedQuantifier, quantifierUnsupported]
  exact ⟨h, C6_unsupported_quantifier astExact3 h 1⟩

/-- Claim C7 counterexample: the claim asserts that the backtracking search is
bounded by an explicit configurable limit and that exceeding the bound yields
a distinct pattern-too-complex outcome.  The code has no such bound: on the
valid pattern (a?)*b and the empty text the search recurses forever (modelled
as exhausting every fuel and returning none at all budgets), and the public
interface offers no complexity-exceeded outcome of any kind. -/
theorem C7_counterexample : RegexNeverReturns "(a?)*b".toList "".toList :=
  ⟨⟨astLoop, rfl⟩, RegexLoop_never_returns⟩

/-- Claim C7 (amended): the matcher has no recursion or step bound at all.
The pattern (a?)*b parses and compiles successfully, and the search over the
empty text exceeds every recursion budget without terminating, with no
reportable pattern-too-complex outcome (the only outcomes of the matcher are
the booleans and non-termination). -/
theorem C7_amended :
    parseRE "(a?)*b".toList = some astLoop ∧
    Compiler.compile astLoop 1 = some (machineLoop, 9) ∧
    ∀ fuel, RegexMatches "(a?)*b".toList "".toList fuel = none :=
  ⟨rfl, rfl, RegexLoop_never_returns⟩

/-- Claim C10: a syntactically invalid pattern - here the unmatched opening
parenthesis - makes Parser::parse fail, and Regex::matches unwraps that error:
the public interface faults (modelled by none) for every text instead of
returning a boolean. -/
theorem C10_invalid_pattern_faults :
    parseRE "(".toList = none ∧
    ∀ (text : List Char) (fuel : Nat), RegexMatches "(".toList text fuel = none :=
  ⟨rfl, fun _ _ => rfl⟩

end RegexRS
